import Mathlib

/-!
# Verification of the Google Maps grid scraper core

Shallow embedding of the core data structures and algorithms of the
repository (files `scraper.py` and `googlemapsscrpaer.py`):

* the `BrowserPool` manager (`get_browser` / `release_browser` /
  `report_error` / `close_all`) from `scraper.py`;
* the grid builders `create_optimal_grid` of both files (degree
  arithmetic is modelled exactly over `ℚ`; the meters→degrees
  conversion in the source produces the degree cell sizes
  `grid_size_lat` / `grid_size_lng`, which are taken here as the
  builder's rational parameters);
* the `(name, address)` deduplicating insertion into the shared result
  list (`process_grid_cell` / `extract_place_info`);
* the max-results dispatch guard of `scrape`;
* the bounds-unavailable control flow of `scrape`.

Python dictionaries are modelled as association lists that preserve
insertion order, exactly as CPython dicts do, because
`BrowserPool.get_browser` iterates `self.browser_in_use.items()` in
that order.
-/

/-! ## Insertion-ordered dictionaries (CPython `dict` semantics) -/

/-- Look up a key in an insertion-ordered association list
(Python `d[k]` / `d.get(k)`): value of the first entry with this key.
A CPython dict never holds two entries with the same key, so on the
lists that actually arise this is exact dict lookup. -/
def lookupD {κ α : Type} [DecidableEq κ] : List (κ × α) → κ → Option α
  | [], _ => none
  | p :: t, k => if p.1 = k then some p.2 else lookupD t k

/-- Python `d[k] = v`: overwrite in place if the key is present
(keeping its position), otherwise append at the end. -/
def insertD {κ α : Type} [DecidableEq κ] : List (κ × α) → κ → α → List (κ × α)
  | [], k, v => [(k, v)]
  | p :: t, k, v => if p.1 = k then (k, v) :: t else p :: insertD t k v

/-- Python `del d[k]` (no-op when absent, matching the guarded deletions
`if k in d: del d[k]` used in the source). -/
def eraseD {κ α : Type} [DecidableEq κ] : List (κ × α) → κ → List (κ × α)
  | [], _ => []
  | p :: t, k => if p.1 = k then t else p :: eraseD t k

/-- Python `k in d`. -/
def memD {κ α : Type} [DecidableEq κ] (m : List (κ × α)) (k : κ) : Bool :=
  (lookupD m k).isSome

/-- The keys of a dict, in insertion order. -/
def keysD {κ α : Type} (m : List (κ × α)) : List κ :=
  m.map (fun p => p.1)

/-! ## The browser pool (`BrowserPool` in `scraper.py`)

The pool keeps three dictionaries keyed by browser id:
`self.browsers` (id → Selenium instance; the instance itself is opaque
to the pool logic, so only the key set matters), `self.browser_in_use`
(id → bool) and `self.browser_health` (id → {errors, pages_loaded}).
All mutations happen inside `with self.lock:` blocks, so the lock-body
of each method is one atomic transition of this state machine.

Browser creation (`_create_browser`) can raise; each transition that
creates a browser therefore takes a `createOk : Bool` flag telling
whether the creation succeeded. -/

/-- Per-browser health record (`self.browser_health[id]`;
`creation_time` is wall-clock noise and is not modelled). -/
structure Health where
  errors : Nat
  pages_loaded : Nat
  deriving DecidableEq, Repr

/-- State of `BrowserPool`: the key list of `self.browsers` (instances
are opaque), the two bookkeeping dicts, and the id counter. -/
structure PoolState where
  max_browsers : Nat
  browser_error_threshold : Nat
  browsers : List Nat
  browser_in_use : List (Nat × Bool)
  browser_health : List (Nat × Health)
  next_browser_id : Nat
  deriving DecidableEq, Repr

/-- A freshly constructed pool (`BrowserPool.__init__`). -/
def initPool (maxB thr : Nat) : PoolState :=
  { max_browsers := maxB
    browser_error_threshold := thr
    browsers := []
    browser_in_use := []
    browser_health := []
    next_browser_id := 0 }

/-- Python `d[k] = v` on the keys-only view of `self.browsers`:
keep position if present, else append. -/
def insertKeyD : List Nat → Nat → List Nat
  | [], k => [k]
  | x :: t, k => if x = k then x :: t else x :: insertKeyD t k

/-- One lock-body iteration of `BrowserPool.get_browser`: scan
`browser_in_use.items()` in insertion order for an idle browser; if
none, create a new one when the pool is not full.  Returns the acquired
id (if any) and the new state.  `createOk` tells whether
`_create_browser` succeeded (on failure nothing is mutated, since the
assignments in the source happen only after `_create_browser`
returns). -/
def get_browser_step (s : PoolState) (createOk : Bool) : Option Nat × PoolState :=
  match s.browser_in_use.find? (fun p => !p.2) with
  | some p =>
      (some p.1, { s with browser_in_use := insertD s.browser_in_use p.1 true })
  | none =>
      if s.browsers.length < s.max_browsers then
        if createOk then
          let nid := s.next_browser_id
          (some nid,
            { s with
              browsers := insertKeyD s.browsers nid
              browser_in_use := insertD s.browser_in_use nid true
              browser_health := insertD s.browser_health nid ⟨0, 0⟩
              next_browser_id := nid + 1 })
        else (none, s)
      else (none, s)

/-- `BrowserPool.release_browser`: mark the browser idle and bump
`pages_loaded`; warn-and-ignore when the id is unknown. -/
def release_browser (s : PoolState) (id : Nat) : PoolState :=
  if memD s.browser_in_use id then
    let s1 := { s with browser_in_use := insertD s.browser_in_use id false }
    match lookupD s.browser_health id with
    | some h =>
        let hlth := insertD s.browser_health id ⟨h.errors, h.pages_loaded + 1⟩
        { s1 with browser_health := hlth }
    | none => s1
  else s

/-- `BrowserPool.report_error`: increment the error counter; at the
threshold, quit and delete the old instance and register a fresh one
under the same id with reset health (`createOk = true`), or — when
recreation raises — remove the id from all three dicts
(`createOk = false`).  Unknown ids are warn-and-return. -/
def report_error (s : PoolState) (id : Nat) (createOk : Bool) : PoolState :=
  match lookupD s.browser_health id with
  | none => s
  | some h =>
      let e := h.errors + 1
      let hlth1 := insertD s.browser_health id ⟨e, h.pages_loaded⟩
      let s1 := { s with browser_health := hlth1 }
      if e ≥ s.browser_error_threshold then
        let s2 := { s1 with browsers := s1.browsers.filter (fun k => k != id) }
        if createOk then
          let hlth2 := insertD s2.browser_health id ⟨0, 0⟩
          { s2 with browsers := insertKeyD s2.browsers id, browser_health := hlth2 }
        else
          let use3 := eraseD s2.browser_in_use id
          { s2 with browser_in_use := use3, browser_health := eraseD s2.browser_health id }
      else s1

/-- `BrowserPool.close_all`: quit every browser and clear all three
dicts. -/
def close_all (s : PoolState) : PoolState :=
  { s with browsers := [], browser_in_use := [], browser_health := [] }

/-- One pool operation, as issued by worker threads. -/
inductive PoolOp where
  | acquire (createOk : Bool)
  | release (id : Nat)
  | reportErr (id : Nat) (createOk : Bool)
  | closeAll
  deriving DecidableEq, Repr

/-- Apply one operation to the pool state. -/
def poolStep (s : PoolState) (op : PoolOp) : PoolState :=
  match op with
  | .acquire ok => (get_browser_step s ok).2
  | .release id => release_browser s id
  | .reportErr id ok => report_error s id ok
  | .closeAll => close_all s

/-- Run a sequence of pool operations. -/
def poolRun (s : PoolState) (ops : List PoolOp) : PoolState :=
  ops.foldl poolStep s

/-! ## Grid builders (`create_optimal_grid`)

Both source files build the grid with the same double loop; they differ
in how row/column counts are computed and in the presence of a safety
ceiling.  Coordinates are modelled over `ℚ`.  In the source the degree
cell sizes `grid_size_lat` / `grid_size_lng` are obtained from
`grid_size_meters` by a transcendental meters→degrees conversion
(`cos` of the average latitude); the builders are therefore modelled
from the point where those two degree sizes are in hand, taking them as
parameters. -/

/-- One cell dict of the grid (`scraper.py` / `googlemapsscrpaer.py`);
`business_count_estimate` of the pooled variant is a constant-0
placeholder and is not modelled. -/
structure GridCell where
  swLat : ℚ
  swLng : ℚ
  neLat : ℚ
  neLng : ℚ
  centerLat : ℚ
  centerLng : ℚ
  row : Nat
  col : Nat
  cell_id : String
  processed : Bool
  likely_empty : Bool
  deriving DecidableEq, Repr

/-- The f-string `f"r{i}c{j}"` building a cell id. -/
def mkCellId (i j : Nat) : String :=
  "r" ++ Nat.repr i ++ "c" ++ Nat.repr j

/-- Cell `(i, j)` as built by `scraper.py` (`lat2 = lat1 + grid_size_lat`). -/
def mkCellP (swLat swLng dLat dLng : ℚ) (i j : Nat) : GridCell :=
  let lat1 := swLat + i * dLat
  let lat2 := lat1 + dLat
  let lng1 := swLng + j * dLng
  let lng2 := lng1 + dLng
  { swLat := lat1, swLng := lng1, neLat := lat2, neLng := lng2
    centerLat := (lat1 + lat2) / 2, centerLng := (lng1 + lng2) / 2
    row := i, col := j, cell_id := mkCellId i j
    processed := false, likely_empty := false }

/-- Cell `(i, j)` as built by `googlemapsscrpaer.py`
(`lat2 = sw_lat + (i + 1) * grid_size_lat`). -/
def mkCellE (swLat swLng dLat dLng : ℚ) (i j : Nat) : GridCell :=
  let lat1 := swLat + i * dLat
  let lat2 := swLat + (i + 1 : Nat) * dLat
  let lng1 := swLng + j * dLng
  let lng2 := swLng + (j + 1 : Nat) * dLng
  { swLat := lat1, swLng := lng1, neLat := lat2, neLng := lng2
    centerLat := (lat1 + lat2) / 2, centerLng := (lng1 + lng2) / 2
    row := i, col := j, cell_id := mkCellId i j
    processed := false, likely_empty := false }

/-- Row count of the pooled variant:
`cells_lat = max(1, math.ceil(abs(ne_lat - sw_lat) / grid_size_lat))`. -/
def gridRowsP (neLat swLat dLat : ℚ) : Nat :=
  (max 1 ⌈|neLat - swLat| / dLat⌉).toNat

/-- Column count of the pooled variant. -/
def gridColsP (neLng swLng dLng : ℚ) : Nat :=
  (max 1 ⌈|neLng - swLng| / dLng⌉).toNat

/-- Row count of the enhanced variant:
`cells_lat = math.ceil((ne_lat - sw_lat) / grid_size_lat)`; a
non-positive value makes `range(cells_lat)` empty, modelled by
`Int.toNat`. -/
def gridRowsE (neLat swLat dLat : ℚ) : Nat :=
  ⌈(neLat - swLat) / dLat⌉.toNat

/-- Column count of the enhanced variant. -/
def gridColsE (neLng swLng dLng : ℚ) : Nat :=
  ⌈(neLng - swLng) / dLng⌉.toNat

/-- The row-major double loop shared by both builders. -/
def gridLoop (mk : Nat → Nat → GridCell) (rows cols : Nat) : List GridCell :=
  (List.range rows).flatMap fun i => (List.range cols).map fun j => mk i j

/-- `GoogleMapsGridScraper.create_optimal_grid` (`scraper.py`): row and
column counts floored at 1, `None` when the total exceeds the
100000-cell safety ceiling, otherwise the row-major list of cells. -/
def create_optimal_grid (neLat neLng swLat swLng dLat dLng : ℚ) :
    Option (List GridCell) :=
  let cellsLat := gridRowsP neLat swLat dLat
  let cellsLng := gridColsP neLng swLng dLng
  if cellsLat * cellsLng > 100000 then none
  else some (gridLoop (mkCellP swLat swLng dLat dLng) cellsLat cellsLng)

/-- `EnhancedGoogleMapsGridScraper.create_optimal_grid`
(`googlemapsscrpaer.py`): no flooring, no ceiling, silently empty when
`ne_lat ≤ sw_lat`. -/
def create_optimal_grid_enhanced (neLat neLng swLat swLng dLat dLng : ℚ) :
    List GridCell :=
  gridLoop (mkCellE swLat swLng dLat dLng)
    (gridRowsE neLat swLat dLat) (gridColsE neLng swLng dLng)

/-! ## Density-based subdivider (modelled from the spec)

No subdivision routine exists anywhere under `src/`; the two source
files only search each grid cell once.  The definitions below are
therefore modelled from the specification text alone. -/

/-- Subdivision thresholds (spec §4.2). -/
structure SubdivThresholds where
  resultsThreshold : Nat
  maxDivisions : Nat
  minCellSizeDegrees : ℚ
  deriving DecidableEq, Repr

/-- Modelled from the spec: the default thresholds, with
`resultsThreshold` defaulting to 40 (spec §4.2: "default 40"). -/
def defaultThresholds (maxDiv : Nat) (minCell : ℚ) : SubdivThresholds :=
  { resultsThreshold := 40, maxDivisions := maxDiv, minCellSizeDegrees := minCell }

/-- Modelled from the spec: `shouldSubdivide` is missing from `src/`.
Spec §4.2: "Subdivide when `resultCount >= resultsThreshold` AND
`depth < maxDivisions` AND cell dimensions exceed
`2 × minCellSizeDegrees`". -/
def shouldSubdivide (resultCountInCell depth : Nat)
    (cellWidthDeg cellHeightDeg : ℚ) (t : SubdivThresholds) : Bool :=
  decide (t.resultsThreshold ≤ resultCountInCell) &&
  decide (depth < t.maxDivisions) &&
  decide (2 * t.minCellSizeDegrees < cellWidthDeg) &&
  decide (2 * t.minCellSizeDegrees < cellHeightDeg)

/-- Modelled from the spec: quadrant `(i, j)` (`i, j ∈ {0, 1}`) of a
parent cell, for the 2×2 split of §4.2; children get ids scoped to the
parent (spec §3: "new sequential ids scoped to their parent"). -/
def quadrant (c : GridCell) (i j : Nat) : GridCell :=
  let halfLat := (c.neLat - c.swLat) / 2
  let halfLng := (c.neLng - c.swLng) / 2
  let lat1 := c.swLat + i * halfLat
  let lat2 := lat1 + halfLat
  let lng1 := c.swLng + j * halfLng
  let lng2 := lng1 + halfLng
  { swLat := lat1, swLng := lng1, neLat := lat2, neLng := lng2
    centerLat := (lat1 + lat2) / 2, centerLng := (lng1 + lng2) / 2
    row := i, col := j, cell_id := c.cell_id ++ mkCellId i j
    processed := false, likely_empty := false }

/-- Modelled from the spec: `subdivide(cell) -> list<GridCell>`,
"always 2×2 by default" (spec §4.2). -/
def subdivide (c : GridCell) : List GridCell :=
  (List.range 2).flatMap fun i => (List.range 2).map fun j => quadrant c i j

/-! ## Deduplicating result insertion

`scraper.py` (`process_grid_cell`): under `self.lock`, a listing is
appended to `self.results` only when its `(name, address)` key is not
in `self.seen_businesses`; a duplicate only backfills a missing email.
`googlemapsscrpaer.py` splits the same logic between
`extract_place_info` (key check, email backfill, seen update) and its
caller (append) — the same atomic insert. -/

/-- A business listing; only the fields the dedup logic reads are
modelled, with `""` standing for a missing/empty (falsy) field. -/
structure Listing where
  name : String
  address : String
  email : String
  phone : String
  website : String
  deriving DecidableEq, Repr

/-- `business_key = (place_info["name"], place_info.get("address", ""))`. -/
def listingKey (p : Listing) : String × String :=
  (p.name, p.address)

/-- The shared result list plus the dedup map
(`self.results`, `self.seen_businesses`). -/
structure ResultsState where
  results : List Listing
  seen_businesses : List ((String × String) × Nat)
  deriving DecidableEq, Repr

/-- Empty result state (`__init__`). -/
def initResults : ResultsState :=
  { results := [], seen_businesses := [] }

/-- One deduplicated insertion (the locked check-then-insert of
`process_grid_cell`): append when the key is new and record its index;
otherwise only backfill a missing email on the existing entry. -/
def add_place (s : ResultsState) (p : Listing) : ResultsState :=
  let key := listingKey p
  match lookupD s.seen_businesses key with
  | none =>
      { results := s.results ++ [p]
        seen_businesses := insertD s.seen_businesses key s.results.length }
  | some idx =>
      match s.results.get? idx with
      | some q =>
          if p.email ≠ "" ∧ q.email = "" then
            { s with results := s.results.set idx { q with email := p.email } }
          else s
      | none => s

/-- Process a batch of listings in order. -/
def add_places (s : ResultsState) (ps : List Listing) : ResultsState :=
  ps.foldl add_place s

/-! ## The max-results dispatch guard (`scrape`, `scraper.py`)

The submission loop of `scrape` reads `len(self.results)` under
`self.lock` before every dispatch and latches `stop_submission` once
the count reaches `max_results`; dispatched cells are never cancelled
and add their listings when they finish.  Since the accumulated count
never decreases, the latch is equivalent to the per-dispatch guard
`count < max_results`.  An execution is a sequence of scheduler events
(dispatch of a cell / completion of an in-flight cell), each cell's
unique-listing contribution given by `yields`. -/

/-- Scheduler state: accumulated listing count and in-flight cells. -/
structure SchedState where
  count : Nat
  inFlight : List Nat
  deriving DecidableEq, Repr

/-- Scheduler events. -/
inductive SchedEv where
  | submitCell (c : Nat)
  | finishCell (c : Nat)
  deriving DecidableEq, Repr

/-- One scheduler step; `none` when the event cannot occur (dispatch is
guarded by `count < maxR`; only an in-flight cell can finish). -/
def schedStep (yields : Nat → Nat) (maxR : Nat) (s : SchedState) :
    SchedEv → Option SchedState
  | .submitCell c =>
      if s.count < maxR then some { s with inFlight := s.inFlight ++ [c] } else none
  | .finishCell c =>
      if s.inFlight.contains c then
        some { count := s.count + yields c, inFlight := s.inFlight.erase c }
      else none

/-- Run a sequence of scheduler events. -/
def schedRun (yields : Nat → Nat) (maxR : Nat) (s : SchedState) :
    List SchedEv → Option SchedState
  | [] => some s
  | e :: es =>
      match schedStep yields maxR s e with
      | none => none
      | some s1 => schedRun yields maxR s1 es

/-- Whether an event list contains a dispatch. -/
def hasSubmit (es : List SchedEv) : Bool :=
  es.any fun e => match e with | .submitCell _ => true | .finishCell _ => false

/-! ## Bounds-unavailable control flow (`scrape`, `scraper.py` 3470-3479)

`bounds = self.get_exact_city_bounds(location); if not bounds:
... return []` — the run aborts with an empty result list; the only
other path proceeds into grid creation.  There is no single non-grid
fallback search anywhere in either source file. -/

/-- A bounding box as returned by `get_exact_city_bounds`. -/
structure BoundsBox where
  neLat : ℚ
  neLng : ℚ
  swLat : ℚ
  swLng : ℚ
  deriving DecidableEq, Repr

/-- What `scrape` does right after the bounds lookup. The
`fallbackWholeSearch` action is the behaviour the spec describes
(a single non-grid search of the whole term+location); it is listed so
that the spec's claim is statable against the code's actual action. -/
inductive ScrapeAction where
  | abortEmptyResults
  | proceedWithGrid
  | fallbackWholeSearch
  deriving DecidableEq, Repr

/-- The branch on `bounds` in `scrape` (`scraper.py` 3470-3479). -/
def scrape_bounds_action (bounds : Option BoundsBox) : ScrapeAction :=
  match bounds with
  | none => ScrapeAction.abortEmptyResults
  | some _ => ScrapeAction.proceedWithGrid

/-! ## Decimal digit strings

Helpers to reason about `Nat.repr` (used by the `f"r{i}c{j}"` cell
ids): a fuel-free version of `Nat.toDigits 10`, its decimal value, and
the fact that it only produces digit characters. -/

/-- Fuel-free counterpart of `Nat.toDigits 10`. -/
def digitsOf (n : Nat) : List Char :=
  if h : n < 10 then [Nat.digitChar n]
  else digitsOf (n / 10) ++ [Nat.digitChar (n % 10)]
  termination_by n
  decreasing_by
    exact Nat.div_lt_self (by omega) (by omega)

/-- Numeric value of a digit character. -/
def chVal (c : Char) : Nat := c.toNat - 48

/-- Decimal value of a digit string (most significant first). -/
def valOfDigits : List Char → Nat
  | [] => 0
  | c :: cs => chVal c * 10 ^ cs.length + valOfDigits cs

/-! ## Invariants used in the proofs -/

/-- Invariant of reachable `BrowserPool` states: the pool never holds
more instances than `max_browsers`; the bookkeeping dicts only mention
live browser ids; ids are below the id counter; and (as in any CPython
dict) keys are unique. -/
def PoolInv (s : PoolState) : Prop :=
  s.browsers.length ≤ s.max_browsers ∧
  (∀ k, k ∈ keysD s.browser_health → k ∈ s.browsers) ∧
  (∀ k, k ∈ keysD s.browser_in_use → k ∈ s.browsers) ∧
  (∀ k, k ∈ s.browsers → k < s.next_browser_id) ∧
  (keysD s.browser_in_use).Nodup ∧
  (keysD s.browser_health).Nodup

/-- Invariant of the shared result state: result keys are pairwise
distinct, `seen_businesses` maps each key to the index of the entry
carrying it, and every result's key is registered. -/
def DedupInv (s : ResultsState) : Prop :=
  (s.results.map listingKey).Nodup ∧
  (∀ key idx, lookupD s.seen_businesses key = some idx →
      ∃ q, s.results.get? idx = some q ∧ listingKey q = key) ∧
  (∀ q, q ∈ s.results → memD s.seen_businesses (listingKey q) = true)

/-! # Theorems

## Dictionary lemmas -/

theorem lookupD_insertD_self {κ α : Type} [DecidableEq κ]
    (m : List (κ × α)) (k : κ) (v : α) :
    lookupD (insertD m k v) k = some v := by
  induction m with
  | nil => simp [insertD, lookupD]
  | cons p t ih =>
      by_cases h : p.1 = k
      · simp [insertD, h, lookupD]
      · simp [insertD, h, lookupD, ih]

theorem lookupD_insertD_ne {κ α : Type} [DecidableEq κ]
    (m : List (κ × α)) (k k' : κ) (v : α) (h : k' ≠ k) :
    lookupD (insertD m k v) k' = lookupD m k' := by
  have h2 : ¬(k = k') := fun e => h e.symm
  induction m with
  | nil => simp [insertD, lookupD, h2]
  | cons p t ih =>
      by_cases hp : p.1 = k
      · subst hp
        simp [insertD, lookupD, h2]
      · simp only [insertD, if_neg hp, lookupD]
        by_cases hp' : p.1 = k'
        · simp [hp']
        · simp [hp', ih]

theorem mem_keysD_insertD {κ α : Type} [DecidableEq κ]
    (m : List (κ × α)) (k a : κ) (v : α) :
    a ∈ keysD (insertD m k v) ↔ a = k ∨ a ∈ keysD m := by
  induction m with
  | nil => simp [insertD, keysD]
  | cons p t ih =>
      by_cases h : p.1 = k
      · subst h
        simp only [insertD, eq_self_iff_true, if_true]
        have e1 : keysD ((p.1, v) :: t) = p.1 :: keysD t := rfl
        have e2 : keysD (p :: t) = p.1 :: keysD t := rfl
        rw [e1, e2]
        simp only [List.mem_cons]
        tauto
      · simp only [insertD, if_neg h]
        have e1 : keysD (p :: insertD t k v) = p.1 :: keysD (insertD t k v) := rfl
        have e2 : keysD (p :: t) = p.1 :: keysD t := rfl
        rw [e1, e2]
        simp only [List.mem_cons]
        rw [ih]
        tauto

theorem nodup_keysD_insertD {κ α : Type} [DecidableEq κ]
    (m : List (κ × α)) (k : κ) (v : α) (h : (keysD m).Nodup) :
    (keysD (insertD m k v)).Nodup := by
  induction m with
  | nil => simp [insertD, keysD]
  | cons p t ih =>
      have h' : p.1 ∉ keysD t ∧ (keysD t).Nodup := by
        have hh : (p.1 :: keysD t).Nodup := h
        rw [List.nodup_cons] at hh
        exact hh
      by_cases hp : p.1 = k
      · subst hp
        simp only [insertD, eq_self_iff_true, if_true]
        have e1 : keysD ((p.1, v) :: t) = p.1 :: keysD t := rfl
        rw [e1, List.nodup_cons]
        exact h'
      · simp only [insertD, if_neg hp]
        have e1 : keysD (p :: insertD t k v) = p.1 :: keysD (insertD t k v) := rfl
        rw [e1, List.nodup_cons]
        refine ⟨fun hm => ?_, ih h'.2⟩
        rcases (mem_keysD_insertD t k p.1 v).mp hm with he | he
        · exact hp he
        · exact h'.1 he

theorem keysD_eraseD_sublist {κ α : Type} [DecidableEq κ]
    (m : List (κ × α)) (k : κ) :
    (keysD (eraseD m k)).Sublist (keysD m) := by
  induction m with
  | nil => simp [eraseD, keysD]
  | cons p t ih =>
      by_cases h : p.1 = k
      · simp only [eraseD, if_pos h]
        have e2 : keysD (p :: t) = p.1 :: keysD t := rfl
        rw [e2]
        exact List.sublist_cons_self _ _
      · simp only [eraseD, if_neg h]
        have e1 : keysD (p :: eraseD t k) = p.1 :: keysD (eraseD t k) := rfl
        have e2 : keysD (p :: t) = p.1 :: keysD t := rfl
        rw [e1, e2]
        exact List.Sublist.cons₂ _ ih

theorem lookupD_eraseD_ne {κ α : Type} [DecidableEq κ]
    (m : List (κ × α)) (k k' : κ) (h : k' ≠ k) :
    lookupD (eraseD m k) k' = lookupD m k' := by
  have h2 : ¬(k = k') := fun e => h e.symm
  induction m with
  | nil => simp [eraseD]
  | cons p t ih =>
      by_cases hp : p.1 = k
      · subst hp
        simp [eraseD, lookupD, h2]
      · simp only [eraseD, if_neg hp, lookupD]
        by_cases hp' : p.1 = k'
        · simp [hp']
        · simp [hp', ih]

theorem memD_iff_mem_keysD {κ α : Type} [DecidableEq κ]
    (m : List (κ × α)) (k : κ) :
    memD m k = true ↔ k ∈ keysD m := by
  induction m with
  | nil => simp [memD, lookupD, keysD]
  | cons p t ih =>
      have e2 : keysD (p :: t) = p.1 :: keysD t := rfl
      rw [e2, List.mem_cons]
      by_cases hp : p.1 = k
      · simp [memD, lookupD, hp]
      · have e3 : memD (p :: t) k = memD t k := by
          simp [memD, lookupD, hp]
        rw [e3, ih]
        have h4 : ¬(k = p.1) := fun e => hp e.symm
        tauto

theorem lookupD_eq_none_iff {κ α : Type} [DecidableEq κ]
    (m : List (κ × α)) (k : κ) :
    lookupD m k = none ↔ memD m k = false := by
  unfold memD
  cases lookupD m k <;> simp

theorem not_mem_keysD_eraseD {κ α : Type} [DecidableEq κ]
    (m : List (κ × α)) (k : κ) (h : (keysD m).Nodup) :
    k ∉ keysD (eraseD m k) := by
  induction m with
  | nil => simp [eraseD, keysD]
  | cons p t ih =>
      have h' : p.1 ∉ keysD t ∧ (keysD t).Nodup := by
        have hh : (p.1 :: keysD t).Nodup := h
        rw [List.nodup_cons] at hh
        exact hh
      by_cases hp : p.1 = k
      · subst hp
        simp only [eraseD, if_pos rfl]
        exact h'.1
      · simp only [eraseD, if_neg hp]
        have e1 : keysD (p :: eraseD t k) = p.1 :: keysD (eraseD t k) := rfl
        rw [e1, List.mem_cons]
        rintro (he | he)
        · exact hp he.symm
        · exact ih h'.2 he

theorem lookupD_eraseD_self {κ α : Type} [DecidableEq κ]
    (m : List (κ × α)) (k : κ) (h : (keysD m).Nodup) :
    lookupD (eraseD m k) k = none := by
  rw [lookupD_eq_none_iff]
  have h1 := not_mem_keysD_eraseD m k h
  rw [← memD_iff_mem_keysD] at h1
  simpa using h1

theorem find?_lookupD {α : Type} (m : List (Nat × α)) (pred : Nat × α → Bool)
    (p : Nat × α) (hnd : (keysD m).Nodup) (h : m.find? pred = some p) :
    lookupD m p.1 = some p.2 := by
  induction m with
  | nil => simp at h
  | cons q t ih =>
      have hnd' : q.1 ∉ keysD t ∧ (keysD t).Nodup := by
        have hh : (q.1 :: keysD t).Nodup := hnd
        rw [List.nodup_cons] at hh
        exact hh
      by_cases hq : pred q
      · rw [List.find?_cons_of_pos _ hq] at h
        cases h
        simp [lookupD]
      · rw [List.find?_cons_of_neg _ hq] at h
        have hpm : p ∈ t := List.mem_of_find?_eq_some h
        have hpk : p.1 ∈ keysD t := List.mem_map_of_mem _ hpm
        have hne : ¬(q.1 = p.1) := fun e => hnd'.1 (e ▸ hpk)
        simp only [lookupD, if_neg hne]
        exact ih hnd'.2 h

theorem mem_insertKeyD (l : List Nat) (k a : Nat) :
    a ∈ insertKeyD l k ↔ a = k ∨ a ∈ l := by
  induction l with
  | nil => simp [insertKeyD]
  | cons x t ih =>
      by_cases h : x = k
      · subst h
        simp only [insertKeyD, eq_self_iff_true, if_true, List.mem_cons]
        tauto
      · simp only [insertKeyD, if_neg h, List.mem_cons, ih]
        tauto

theorem length_insertKeyD_le (l : List Nat) (k : Nat) :
    (insertKeyD l k).length ≤ l.length + 1 := by
  induction l with
  | nil => simp [insertKeyD]
  | cons x t ih =>
      by_cases h : x = k
      · simp [insertKeyD, h]
      · simp [insertKeyD, h]
        omega

theorem length_filter_ne_lt (l : List Nat) (k : Nat) (h : k ∈ l) :
    (l.filter (fun x => x != k)).length < l.length := by
  induction l with
  | nil => simp at h
  | cons x t ih =>
      by_cases hx : x = k
      · subst hx
        have e : List.filter (fun y => y != x) (x :: t) = List.filter (fun y => y != x) t := by
          simp [List.filter_cons]
        rw [e, List.length_cons]
        have := List.length_filter_le (fun y => y != x) t
        omega
      · have hkt : k ∈ t := by
          cases h with
          | head => exact absurd rfl hx
          | tail _ h2 => exact h2
        have e : List.filter (fun y => y != k) (x :: t) = x :: List.filter (fun y => y != k) t := by
          simp [List.filter_cons, hx]
        rw [e, List.length_cons, List.length_cons]
        have := ih hkt
        omega

/-! ## Browser-pool invariant -/

theorem poolInv_init (maxB thr : Nat) : PoolInv (initPool maxB thr) := by
  unfold PoolInv initPool
  refine ⟨by simp, ?_, ?_, ?_, by simp [keysD], by simp [keysD]⟩ <;>
    intro k hk <;> simp [keysD] at hk

theorem poolInv_get_browser (s : PoolState) (ok : Bool) (h : PoolInv s) :
    PoolInv (get_browser_step s ok).2 := by
  obtain ⟨hlen, hh, hu, hnext, hndu, hndh⟩ := h
  cases hf : s.browser_in_use.find? (fun p => !p.2) with
  | some p =>
      have hpmem : p ∈ s.browser_in_use := List.mem_of_find?_eq_some hf
      have hpk : p.1 ∈ keysD s.browser_in_use := List.mem_map_of_mem _ hpmem
      simp only [get_browser_step, hf]
      refine ⟨hlen, hh, ?_, hnext, nodup_keysD_insertD _ _ _ hndu, hndh⟩
      intro k hk
      rcases (mem_keysD_insertD _ _ _ _).mp hk with he | he
      · exact hu _ (he ▸ hpk)
      · exact hu _ he
  | none =>
      by_cases hlt : s.browsers.length < s.max_browsers
      · cases ok with
        | false =>
            simp only [get_browser_step, hf, if_pos hlt, Bool.false_eq_true, if_true, if_false]
            exact ⟨hlen, hh, hu, hnext, hndu, hndh⟩
        | true =>
            simp only [get_browser_step, hf, if_pos hlt, Bool.false_eq_true, if_true, if_false]
            refine ⟨?_, ?_, ?_, ?_, nodup_keysD_insertD _ _ _ hndu,
              nodup_keysD_insertD _ _ _ hndh⟩
            · show (insertKeyD s.browsers s.next_browser_id).length ≤ s.max_browsers
              have := length_insertKeyD_le s.browsers s.next_browser_id
              omega
            · intro k hk
              rcases (mem_keysD_insertD _ _ _ _).mp hk with he | he
              · exact (mem_insertKeyD _ _ _).mpr (Or.inl he)
              · exact (mem_insertKeyD _ _ _).mpr (Or.inr (hh _ he))
            · intro k hk
              rcases (mem_keysD_insertD _ _ _ _).mp hk with he | he
              · exact (mem_insertKeyD _ _ _).mpr (Or.inl he)
              · exact (mem_insertKeyD _ _ _).mpr (Or.inr (hu _ he))
            · intro k hk
              rcases (mem_insertKeyD _ _ _).mp hk with he | he
              · show k < s.next_browser_id + 1
                omega
              · have := hnext _ he
                show k < s.next_browser_id + 1
                omega
      · simp only [get_browser_step, hf, if_neg hlt]
        exact ⟨hlen, hh, hu, hnext, hndu, hndh⟩

theorem poolInv_release (s : PoolState) (id : Nat) (h : PoolInv s) :
    PoolInv (release_browser s id) := by
  obtain ⟨hlen, hh, hu, hnext, hndu, hndh⟩ := h
  unfold release_browser
  by_cases hm : memD s.browser_in_use id = true
  · have hidk : id ∈ keysD s.browser_in_use := (memD_iff_mem_keysD _ _).mp hm
    rw [if_pos hm]
    have hsub : ∀ k, k ∈ keysD (insertD s.browser_in_use id false) → k ∈ s.browsers := by
      intro k hk
      rcases (mem_keysD_insertD _ _ _ _).mp hk with he | he
      · exact hu _ (he ▸ hidk)
      · exact hu _ he
    cases hl : lookupD s.browser_health id with
    | some hrec =>
        have hmemh : memD s.browser_health id = true := by
          unfold memD
          rw [hl]
          rfl
        have hidh : id ∈ keysD s.browser_health := (memD_iff_mem_keysD _ _).mp hmemh
        refine ⟨hlen, ?_, hsub, hnext, nodup_keysD_insertD _ _ _ hndu,
          nodup_keysD_insertD _ _ _ hndh⟩
        intro k hk
        rcases (mem_keysD_insertD _ _ _ _).mp hk with he | he
        · exact hh _ (he ▸ hidh)
        · exact hh _ he
    | none =>
        exact ⟨hlen, hh, hsub, hnext, nodup_keysD_insertD _ _ _ hndu, hndh⟩
  · rw [if_neg hm]
    exact ⟨hlen, hh, hu, hnext, hndu, hndh⟩

theorem poolInv_report (s : PoolState) (id : Nat) (ok : Bool) (h : PoolInv s) :
    PoolInv (report_error s id ok) := by
  obtain ⟨hlen, hh, hu, hnext, hndu, hndh⟩ := h
  cases hl : lookupD s.browser_health id with
  | none =>
      simp only [report_error, hl]
      exact ⟨hlen, hh, hu, hnext, hndu, hndh⟩
  | some hrec =>
      have hmemh : memD s.browser_health id = true := by
        unfold memD
        rw [hl]
        rfl
      have hidh : id ∈ keysD s.browser_health := (memD_iff_mem_keysD _ _).mp hmemh
      have hidb : id ∈ s.browsers := hh _ hidh
      have hhins : ∀ k, k ∈ keysD (insertD s.browser_health id ⟨hrec.errors + 1, hrec.pages_loaded⟩) →
          k ∈ s.browsers := by
        intro k hk
        rcases (mem_keysD_insertD _ _ _ _).mp hk with he | he
        · exact he ▸ hidb
        · exact hh _ he
      by_cases hth : hrec.errors + 1 ≥ s.browser_error_threshold
      · cases ok with
        | true =>
            simp only [report_error, hl, if_pos hth, Bool.false_eq_true, if_true, if_false]
            refine ⟨?_, ?_, ?_, ?_, hndu,
              nodup_keysD_insertD _ _ _ (nodup_keysD_insertD _ _ _ hndh)⟩
            · show (insertKeyD (List.filter (fun k => k != id) s.browsers) id).length ≤
                  s.max_browsers
              have h1 := length_filter_ne_lt s.browsers id hidb
              have h2 := length_insertKeyD_le (s.browsers.filter (fun k => k != id)) id
              omega
            · intro k hk
              rcases (mem_keysD_insertD _ _ _ _).mp hk with he | he
              · exact (mem_insertKeyD _ _ _).mpr (Or.inl he)
              · by_cases hkid : k = id
                · exact (mem_insertKeyD _ _ _).mpr (Or.inl hkid)
                · have hkb : k ∈ s.browsers := hhins _ he
                  refine (mem_insertKeyD _ _ _).mpr (Or.inr ?_)
                  rw [List.mem_filter]
                  exact ⟨hkb, by simp [hkid]⟩
            · intro k hk
              by_cases hkid : k = id
              · exact (mem_insertKeyD _ _ _).mpr (Or.inl hkid)
              · have hkb : k ∈ s.browsers := hu _ hk
                refine (mem_insertKeyD _ _ _).mpr (Or.inr ?_)
                rw [List.mem_filter]
                exact ⟨hkb, by simp [hkid]⟩
            · intro k hk
              rcases (mem_insertKeyD _ _ _).mp hk with he | he
              · show k < s.next_browser_id
                rw [he]
                exact hnext _ hidb
              · rw [List.mem_filter] at he
                exact hnext _ he.1
        | false =>
            simp only [report_error, hl, if_pos hth, Bool.false_eq_true, if_true, if_false]
            have hndins : (keysD (insertD s.browser_health id
                ⟨hrec.errors + 1, hrec.pages_loaded⟩)).Nodup :=
              nodup_keysD_insertD _ _ _ hndh
            refine ⟨?_, ?_, ?_, ?_, ?_, ?_⟩
            · show (List.filter (fun k => k != id) s.browsers).length ≤ s.max_browsers
              have := List.length_filter_le (fun k => k != id) s.browsers
              omega
            · intro k hk
              have hksub : k ∈ keysD (insertD s.browser_health id
                  ⟨hrec.errors + 1, hrec.pages_loaded⟩) :=
                (keysD_eraseD_sublist _ id).mem hk
              have hkne : k ≠ id := by
                intro he
                exact not_mem_keysD_eraseD _ id hndins (he ▸ hk)
              have hkb : k ∈ s.browsers := hhins _ hksub
              rw [List.mem_filter]
              exact ⟨hkb, by simp [hkne]⟩
            · intro k hk
              have hksub : k ∈ keysD s.browser_in_use :=
                (keysD_eraseD_sublist _ id).mem hk
              have hkne : k ≠ id := by
                intro he
                exact not_mem_keysD_eraseD _ id hndu (he ▸ hk)
              have hkb : k ∈ s.browsers := hu _ hksub
              rw [List.mem_filter]
              exact ⟨hkb, by simp [hkne]⟩
            · intro k hk
              rw [List.mem_filter] at hk
              exact hnext _ hk.1
            · exact (keysD_eraseD_sublist _ id).nodup hndu
            · exact (keysD_eraseD_sublist _ id).nodup hndins
      · simp only [report_error, hl, if_neg hth]
        exact ⟨hlen, hhins, hu, hnext, hndu, nodup_keysD_insertD _ _ _ hndh⟩

theorem poolInv_close (s : PoolState) : PoolInv (close_all s) := by
  unfold PoolInv close_all
  refine ⟨by simp, ?_, ?_, ?_, by simp [keysD], by simp [keysD]⟩ <;>
    intro k hk <;> simp [keysD] at hk

theorem poolInv_step (s : PoolState) (op : PoolOp) (h : PoolInv s) :
    PoolInv (poolStep s op) := by
  cases op with
  | acquire ok => exact poolInv_get_browser s ok h
  | release id => exact poolInv_release s id h
  | reportErr id ok => exact poolInv_report s id ok h
  | closeAll => exact poolInv_close s

theorem poolInv_run (s : PoolState) (ops : List PoolOp) (h : PoolInv s) :
    PoolInv (poolRun s ops) := by
  induction ops generalizing s with
  | nil => exact h
  | cons op t ih => exact ih _ (poolInv_step s op h)

theorem poolStep_max (s : PoolState) (op : PoolOp) :
    (poolStep s op).max_browsers = s.max_browsers := by
  cases op with
  | acquire ok =>
      simp only [poolStep]
      unfold get_browser_step
      split
      · rfl
      · split
        · split <;> rfl
        · rfl
  | release id =>
      simp only [poolStep]
      unfold release_browser
      split
      · split <;> rfl
      · rfl
  | reportErr id ok =>
      simp only [poolStep]
      unfold report_error
      split
      · rfl
      · dsimp only
        split
        · split <;> rfl
        · rfl
  | closeAll => rfl

theorem poolRun_max (s : PoolState) (ops : List PoolOp) :
    (poolRun s ops).max_browsers = s.max_browsers := by
  induction ops generalizing s with
  | nil => rfl
  | cons op t ih =>
      have := poolStep_max s op
      calc (poolRun (poolStep s op) t).max_browsers
          = (poolStep s op).max_browsers := ih _
        _ = s.max_browsers := this

theorem get_browser_mutex (s : PoolState) (h : PoolInv s) (ok : Bool) (id : Nat)
    (s2 : PoolState) (hacq : get_browser_step s ok = (some id, s2)) :
    lookupD s.browser_in_use id ≠ some true ∧
    lookupD s2.browser_in_use id = some true := by
  obtain ⟨hlen, hh, hu, hnext, hndu, hndh⟩ := h
  cases hf : s.browser_in_use.find? (fun p => !p.2) with
  | some p =>
      simp only [get_browser_step, hf, Prod.mk.injEq] at hacq
      obtain ⟨hid, hs2⟩ := hacq
      injection hid with hid
      subst hid
      subst hs2
      have hpred := List.find?_some hf
      have hpfalse : p.2 = false := by
        cases hb : p.2
        · rfl
        · rw [hb] at hpred
          simp at hpred
      have hlk : lookupD s.browser_in_use p.1 = some p.2 :=
        find?_lookupD _ _ _ hndu hf
      constructor
      · rw [hlk, hpfalse]
        simp
      · exact lookupD_insertD_self _ _ _
  | none =>
      by_cases hlt : s.browsers.length < s.max_browsers
      · cases ok with
        | false =>
            simp only [get_browser_step, hf, if_pos hlt, Bool.false_eq_true, if_true, if_false, Prod.mk.injEq] at hacq
            exact absurd hacq.1 (by simp)
        | true =>
            simp only [get_browser_step, hf, if_pos hlt, Bool.false_eq_true, if_true, if_false, Prod.mk.injEq] at hacq
            obtain ⟨hid, hs2⟩ := hacq
            injection hid with hid
            subst hid
            subst hs2
            constructor
            · intro hcontra
              have hmem : memD s.browser_in_use s.next_browser_id = true := by
                unfold memD
                rw [hcontra]
                rfl
              have hk := (memD_iff_mem_keysD _ _).mp hmem
              have := hnext _ (hu _ hk)
              omega
            · exact lookupD_insertD_self _ _ _
      · simp only [get_browser_step, hf, if_neg hlt, Prod.mk.injEq] at hacq
        exact absurd hacq.1 (by simp)

theorem inuse_reset_only_by_release (s : PoolState) (op : PoolOp) (id : Nat)
    (hnd : (keysD s.browser_in_use).Nodup)
    (htrue : lookupD s.browser_in_use id = some true)
    (hfalse : lookupD (poolStep s op).browser_in_use id = some false) :
    op = PoolOp.release id := by
  cases op with
  | acquire ok =>
      exfalso
      cases hf : s.browser_in_use.find? (fun p => !p.2) with
      | some p =>
          simp only [poolStep, get_browser_step, hf] at hfalse
          by_cases hpid : p.1 = id
          · rw [hpid, lookupD_insertD_self] at hfalse
            simp at hfalse
          · rw [lookupD_insertD_ne _ _ _ _ (fun e => hpid e.symm)] at hfalse
            rw [htrue] at hfalse
            simp at hfalse
      | none =>
          by_cases hlt : s.browsers.length < s.max_browsers
          · cases ok with
            | false =>
                simp only [poolStep, get_browser_step, hf, if_pos hlt, Bool.false_eq_true, if_true, if_false] at hfalse
                rw [htrue] at hfalse
                simp at hfalse
            | true =>
                simp only [poolStep, get_browser_step, hf, if_pos hlt, Bool.false_eq_true, if_true, if_false] at hfalse
                by_cases hpid : s.next_browser_id = id
                · rw [hpid, lookupD_insertD_self] at hfalse
                  simp at hfalse
                · rw [lookupD_insertD_ne _ _ _ _ (fun e => hpid e.symm)] at hfalse
                  rw [htrue] at hfalse
                  simp at hfalse
          · simp only [poolStep, get_browser_step, hf, if_neg hlt] at hfalse
            rw [htrue] at hfalse
            simp at hfalse
  | release j =>
      by_cases hj : j = id
      · rw [hj]
      · exfalso
        have hstep : (poolStep s (PoolOp.release j)).browser_in_use =
            (release_browser s j).browser_in_use := rfl
        rw [hstep] at hfalse
        unfold release_browser at hfalse
        by_cases hm : memD s.browser_in_use j = true
        · rw [if_pos hm] at hfalse
          cases hl : lookupD s.browser_health j with
          | some hrec =>
              rw [hl] at hfalse
              simp only at hfalse
              rw [lookupD_insertD_ne _ _ _ _ (fun e => hj e.symm)] at hfalse
              rw [htrue] at hfalse
              simp at hfalse
          | none =>
              rw [hl] at hfalse
              simp only at hfalse
              rw [lookupD_insertD_ne _ _ _ _ (fun e => hj e.symm)] at hfalse
              rw [htrue] at hfalse
              simp at hfalse
        · rw [if_neg hm] at hfalse
          rw [htrue] at hfalse
          simp at hfalse
  | reportErr j ok =>
      exfalso
      cases hl : lookupD s.browser_health j with
      | none =>
          simp only [poolStep, report_error, hl] at hfalse
          rw [htrue] at hfalse
          simp at hfalse
      | some hrec =>
          by_cases hth : hrec.errors + 1 ≥ s.browser_error_threshold
          · cases ok with
            | true =>
                simp only [poolStep, report_error, hl, if_pos hth, Bool.false_eq_true, if_true, if_false] at hfalse
                rw [htrue] at hfalse
                simp at hfalse
            | false =>
                simp only [poolStep, report_error, hl, if_pos hth, Bool.false_eq_true, if_true, if_false] at hfalse
                by_cases hj : j = id
                · subst hj
                  rw [lookupD_eraseD_self _ _ hnd] at hfalse
                  simp at hfalse
                · rw [lookupD_eraseD_ne _ _ _ (fun e => hj e.symm)] at hfalse
                  rw [htrue] at hfalse
                  simp at hfalse
          · simp only [poolStep, report_error, hl, if_neg hth] at hfalse
            rw [htrue] at hfalse
            simp at hfalse
  | closeAll =>
      exfalso
      simp only [poolStep, close_all, lookupD] at hfalse
      exact Option.noConfusion hfalse

/-- C1: starting from an empty pool, for every sequence of pool
operations the number of live browser instances never exceeds the
configured `max_browsers`; `get_browser` returns an id only if that
id's `in_use` flag was not `true` (it then atomically sets it to
`true`); and the only operation that resets a held flag to `false` is
`release_browser` on that id. -/
theorem C1_pool_bound_and_mutual_exclusion (maxB thr : Nat) (ops : List PoolOp) :
    (poolRun (initPool maxB thr) ops).browsers.length ≤ maxB ∧
    (∀ (ok : Bool) (id : Nat) (s2 : PoolState),
        get_browser_step (poolRun (initPool maxB thr) ops) ok = (some id, s2) →
        lookupD (poolRun (initPool maxB thr) ops).browser_in_use id ≠ some true ∧
        lookupD s2.browser_in_use id = some true) ∧
    (∀ (op : PoolOp) (id : Nat),
        lookupD (poolRun (initPool maxB thr) ops).browser_in_use id = some true →
        lookupD (poolStep (poolRun (initPool maxB thr) ops) op).browser_in_use id =
          some false →
        op = PoolOp.release id) := by
  have hinv := poolInv_run (initPool maxB thr) ops (poolInv_init maxB thr)
  have hmax := poolRun_max (initPool maxB thr) ops
  refine ⟨?_, ?_, ?_⟩
  · have h1 := hinv.1
    rw [hmax] at h1
    exact h1
  · exact fun ok id s2 hacq => get_browser_mutex _ hinv ok id s2 hacq
  · exact fun op id h1 h2 =>
      inuse_reset_only_by_release _ op id hinv.2.2.2.2.1 h1 h2

theorem C1_pool_witness :
    (poolRun (initPool 2 3)
        [PoolOp.acquire true, PoolOp.acquire true, PoolOp.release 0]).browsers.length ≤ 2 ∧
    (lookupD (poolRun (initPool 2 3)
        [PoolOp.acquire true, PoolOp.acquire true, PoolOp.release 0]).browser_in_use 0 ≠
          some true ∧
      lookupD (get_browser_step (poolRun (initPool 2 3)
        [PoolOp.acquire true, PoolOp.acquire true, PoolOp.release 0]) true).2.browser_in_use 0 =
          some true) ∧
    PoolOp.release 1 = PoolOp.release 1 :=
  ⟨(C1_pool_bound_and_mutual_exclusion 2 3
      [PoolOp.acquire true, PoolOp.acquire true, PoolOp.release 0]).1,
    (C1_pool_bound_and_mutual_exclusion 2 3
      [PoolOp.acquire true, PoolOp.acquire true, PoolOp.release 0]).2.1 true 0 _ (by decide),
    (C1_pool_bound_and_mutual_exclusion 2 3
      [PoolOp.acquire true, PoolOp.acquire true, PoolOp.release 0]).2.2 (PoolOp.release 1) 1
      (by decide) (by decide)⟩

/-- C3: for a browser id present in the pool, `report_error` increments
that id's error counter; when the incremented counter reaches
`browser_error_threshold` (and recreation succeeds) the instance is
destroyed and replaced under the same id, the error counter resets to
0, and the `in_use` dict is untouched, so a caller's held flag stays
`true`. -/
theorem C3_report_error_threshold (s : PoolState) (id : Nat) (h : Health) (ok : Bool)
    (hh : lookupD s.browser_health id = some h) :
    (h.errors + 1 < s.browser_error_threshold →
        lookupD (report_error s id ok).browser_health id =
          some ⟨h.errors + 1, h.pages_loaded⟩ ∧
        (report_error s id ok).browsers = s.browsers ∧
        (report_error s id ok).browser_in_use = s.browser_in_use) ∧
    (h.errors + 1 ≥ s.browser_error_threshold →
        lookupD (report_error s id true).browser_health id = some ⟨0, 0⟩ ∧
        id ∈ (report_error s id true).browsers ∧
        (report_error s id true).browser_in_use = s.browser_in_use) := by
  constructor
  · intro hlt
    have hth : ¬(h.errors + 1 ≥ s.browser_error_threshold) := by omega
    simp only [report_error, hh, if_neg hth]
    exact ⟨lookupD_insertD_self _ _ _, trivial, trivial⟩
  · intro hge
    simp only [report_error, hh, if_pos hge, Bool.false_eq_true, if_true, if_false]
    refine ⟨lookupD_insertD_self _ _ _, ?_, trivial⟩
    exact (mem_insertKeyD _ _ _).mpr (Or.inl rfl)

theorem C3_report_error_witness :
    lookupD (report_error ⟨2, 3, [0], [(0, true)], [(0, ⟨0, 4⟩)], 1⟩ 0 true).browser_health 0 =
        some ⟨1, 4⟩ ∧
    lookupD (report_error ⟨2, 3, [0], [(0, true)], [(0, ⟨2, 4⟩)], 1⟩ 0 true).browser_health 0 =
        some ⟨0, 0⟩ ∧
    (report_error ⟨2, 3, [0], [(0, true)], [(0, ⟨2, 4⟩)], 1⟩ 0 true).browser_in_use =
        [(0, true)] :=
  ⟨((C3_report_error_threshold ⟨2, 3, [0], [(0, true)], [(0, ⟨0, 4⟩)], 1⟩ 0 ⟨0, 4⟩ true
      (by decide)).1 (by decide)).1,
    ((C3_report_error_threshold ⟨2, 3, [0], [(0, true)], [(0, ⟨2, 4⟩)], 1⟩ 0 ⟨2, 4⟩ true
      (by decide)).2 (by decide)).1,
    ((C3_report_error_threshold ⟨2, 3, [0], [(0, true)], [(0, ⟨2, 4⟩)], 1⟩ 0 ⟨2, 4⟩ true
      (by decide)).2 (by decide)).2.2⟩

/-- C9: calling `release_browser` or `report_error` with a browser id
not present in the pool raises nothing and leaves the whole pool state
(browsers, in_use, health) unchanged. -/
theorem C9_unknown_id_noop (s : PoolState) (id : Nat) (ok : Bool)
    (h1 : memD s.browser_in_use id = false)
    (h2 : memD s.browser_health id = false) :
    release_browser s id = s ∧ report_error s id ok = s := by
  constructor
  · unfold release_browser
    rw [if_neg (by simp [h1])]
  · have h3 : lookupD s.browser_health id = none := (lookupD_eq_none_iff _ _).mpr h2
    simp only [report_error, h3]

theorem C9_unknown_id_noop_witness :
    release_browser ⟨2, 3, [0], [(0, false)], [(0, ⟨0, 0⟩)], 1⟩ 5 =
        ⟨2, 3, [0], [(0, false)], [(0, ⟨0, 0⟩)], 1⟩ ∧
    report_error ⟨2, 3, [0], [(0, false)], [(0, ⟨0, 0⟩)], 1⟩ 5 true =
        ⟨2, 3, [0], [(0, false)], [(0, ⟨0, 0⟩)], 1⟩ :=
  C9_unknown_id_noop ⟨2, 3, [0], [(0, false)], [(0, ⟨0, 0⟩)], 1⟩ 5 true
    (by decide) (by decide)

/-! ## Grid lemmas -/

theorem gridLoop_eq_map (mk : Nat → Nat → GridCell) (rows cols : Nat) :
    gridLoop mk rows cols =
      (List.range (rows * cols)).map (fun k => mk (k / cols) (k % cols)) := by
  induction rows with
  | zero => simp [gridLoop]
  | succ r ih =>
      have h1 : gridLoop mk (r + 1) cols =
          gridLoop mk r cols ++ (List.range cols).map (fun j => mk r j) := by
        unfold gridLoop
        rw [List.range_succ, List.flatMap_append]
        simp
      rw [h1, ih]
      have h2 : (r + 1) * cols = r * cols + cols := by ring
      rw [h2, List.range_add, List.map_append, List.map_map]
      congr 1
      apply List.map_congr_left
      intro j hj
      rw [List.mem_range] at hj
      have hc : 0 < cols := by omega
      simp only [Function.comp]
      have hd : (r * cols + j) / cols = r := by
        rw [Nat.mul_comm r cols, Nat.mul_add_div hc, Nat.div_eq_of_lt hj]
        omega
      have hm : (r * cols + j) % cols = j := by
        rw [Nat.mul_comm r cols, Nat.mul_add_mod]
        exact Nat.mod_eq_of_lt hj
      rw [hd, hm]

theorem gridLoop_length (mk : Nat → Nat → GridCell) (rows cols : Nat) :
    (gridLoop mk rows cols).length = rows * cols := by
  rw [gridLoop_eq_map]
  simp

theorem gridLoop_get? (mk : Nat → Nat → GridCell) (rows cols i j : Nat)
    (hi : i < rows) (hj : j < cols) :
    (gridLoop mk rows cols)[i * cols + j]? = some (mk i j) := by
  rw [gridLoop_eq_map]
  have hc : 0 < cols := by omega
  have hk : i * cols + j < rows * cols := by
    have h1 : i * cols + j < (i + 1) * cols := by
      have : (i + 1) * cols = i * cols + cols := by ring
      omega
    have h2 : (i + 1) * cols ≤ rows * cols := Nat.mul_le_mul_right _ hi
    omega
  rw [List.getElem?_map, List.getElem?_range hk]
  have hd : (i * cols + j) / cols = i := by
    rw [Nat.mul_comm i cols, Nat.mul_add_div hc, Nat.div_eq_of_lt hj]
    omega
  have hm : (i * cols + j) % cols = j := by
    rw [Nat.mul_comm i cols, Nat.mul_add_mod]
    exact Nat.mod_eq_of_lt hj
  simp [hd, hm]

theorem mem_gridLoop (mk : Nat → Nat → GridCell) (rows cols : Nat) (c : GridCell) :
    c ∈ gridLoop mk rows cols ↔ ∃ i, i < rows ∧ ∃ j, j < cols ∧ c = mk i j := by
  unfold gridLoop
  rw [List.mem_flatMap]
  constructor
  · rintro ⟨i, hi, hmem⟩
    rw [List.mem_range] at hi
    rw [List.mem_map] at hmem
    obtain ⟨j, hj, he⟩ := hmem
    rw [List.mem_range] at hj
    exact ⟨i, hi, j, hj, he.symm⟩
  · rintro ⟨i, hi, j, hj, he⟩
    refine ⟨i, List.mem_range.mpr hi, ?_⟩
    rw [List.mem_map]
    exact ⟨j, List.mem_range.mpr hj, he.symm⟩

theorem gridRowsP_pos (n s d : ℚ) : 1 ≤ gridRowsP n s d := by
  unfold gridRowsP
  have h : (1 : ℤ) ≤ max 1 ⌈|n - s| / d⌉ := le_max_left _ _
  omega

theorem gridRowsP_mul_ge (n s d : ℚ) (hd : 0 < d) (hsn : s < n) :
    n - s ≤ (gridRowsP n s d : ℚ) * d := by
  unfold gridRowsP
  have habs : |n - s| = n - s := abs_of_pos (by linarith)
  rw [habs]
  have h1 : (n - s) / d ≤ ((⌈(n - s) / d⌉ : ℤ) : ℚ) := Int.le_ceil _
  have h2 : ⌈(n - s) / d⌉ ≤ max 1 ⌈(n - s) / d⌉ := le_max_right _ _
  have h3 : (1 : ℤ) ≤ max 1 ⌈(n - s) / d⌉ := le_max_left _ _
  have h4 : ((max 1 ⌈(n - s) / d⌉).toNat : ℤ) = max 1 ⌈(n - s) / d⌉ := by omega
  have h5 : ((⌈(n - s) / d⌉ : ℤ) : ℚ) ≤ (((max 1 ⌈(n - s) / d⌉).toNat : ℕ) : ℚ) := by
    have h6 : ⌈(n - s) / d⌉ ≤ ((max 1 ⌈(n - s) / d⌉).toNat : ℤ) := by omega
    exact_mod_cast h6
  have h7 : (n - s) / d ≤ (((max 1 ⌈(n - s) / d⌉).toNat : ℕ) : ℚ) := le_trans h1 h5
  calc n - s = ((n - s) / d) * d := by field_simp
    _ ≤ (((max 1 ⌈(n - s) / d⌉).toNat : ℕ) : ℚ) * d :=
        mul_le_mul_of_nonneg_right h7 hd.le
    _ = _ := rfl

theorem gridRowsP_inner_lt (n s d : ℚ) (hd : 0 < d) (hsn : s < n) (i : Nat)
    (hi : i + 1 < gridRowsP n s d) : ((i : ℚ) + 1) * d < n - s := by
  unfold gridRowsP at hi
  have habs : |n - s| = n - s := abs_of_pos (by linarith)
  rw [habs] at hi
  have hc1 : 0 < ⌈(n - s) / d⌉ := Int.ceil_pos.mpr (div_pos (by linarith) hd)
  have hmax : max 1 ⌈(n - s) / d⌉ = ⌈(n - s) / d⌉ := max_eq_right (by omega)
  rw [hmax] at hi
  have h2 : (i : ℤ) + 1 < ⌈(n - s) / d⌉ := by omega
  have h3 : ((⌈(n - s) / d⌉ : ℤ) : ℚ) < (n - s) / d + 1 := Int.ceil_lt_add_one _
  have h4 : ((i : ℚ) + 1) + 1 ≤ ((⌈(n - s) / d⌉ : ℤ) : ℚ) := by exact_mod_cast h2
  have h5 : (i : ℚ) + 1 < (n - s) / d := by linarith
  calc ((i : ℚ) + 1) * d < ((n - s) / d) * d := mul_lt_mul_of_pos_right h5 hd
    _ = n - s := by field_simp

theorem covers_oneD (n s d x : ℚ) (hd : 0 < d) (hsn : s < n)
    (hsx : s ≤ x) (hxn : x ≤ n) :
    ∃ i : Nat, i < gridRowsP n s d ∧ s + i * d ≤ x ∧ x ≤ s + (i + 1) * d := by
  have hR1 : 1 ≤ gridRowsP n s d := gridRowsP_pos n s d
  have hRge : n - s ≤ (gridRowsP n s d : ℚ) * d := gridRowsP_mul_ge n s d hd hsn
  by_cases hlast : x < s + (gridRowsP n s d : ℚ) * d
  · have hq0 : 0 ≤ (x - s) / d := div_nonneg (by linarith) hd.le
    have hfl : ((⌊(x - s) / d⌋ : ℤ) : ℚ) ≤ (x - s) / d := Int.floor_le _
    have hfl2 : (x - s) / d < ((⌊(x - s) / d⌋ : ℤ) : ℚ) + 1 := Int.lt_floor_add_one _
    have hnn : 0 ≤ ⌊(x - s) / d⌋ := Int.floor_nonneg.mpr hq0
    have hi0 : ((⌊(x - s) / d⌋.toNat : ℕ) : ℚ) = ((⌊(x - s) / d⌋ : ℤ) : ℚ) := by
      have := Int.toNat_of_nonneg hnn
      exact_mod_cast congrArg (fun z : ℤ => (z : ℚ)) this
    refine ⟨⌊(x - s) / d⌋.toNat, ?_, ?_, ?_⟩
    · have hqR : (x - s) / d < ((gridRowsP n s d : ℕ) : ℚ) := by
        rw [div_lt_iff hd]
        linarith
      have h6 : ((⌊(x - s) / d⌋.toNat : ℕ) : ℚ) < ((gridRowsP n s d : ℕ) : ℚ) := by
        rw [hi0]
        exact lt_of_le_of_lt hfl hqR
      exact_mod_cast h6
    · have h7 : ((⌊(x - s) / d⌋.toNat : ℕ) : ℚ) * d ≤ x - s := by
        rw [hi0]
        calc ((⌊(x - s) / d⌋ : ℤ) : ℚ) * d ≤ ((x - s) / d) * d :=
              mul_le_mul_of_nonneg_right hfl hd.le
          _ = x - s := by field_simp
      linarith
    · have h8 : x - s < (((⌊(x - s) / d⌋.toNat : ℕ) : ℚ) + 1) * d := by
        rw [hi0]
        have h9 : x - s = ((x - s) / d) * d := by field_simp
        calc x - s = ((x - s) / d) * d := h9
          _ < (((⌊(x - s) / d⌋ : ℤ) : ℚ) + 1) * d := mul_lt_mul_of_pos_right hfl2 hd
      linarith
  · push_neg at hlast
    have hx : x = s + (gridRowsP n s d : ℚ) * d := le_antisymm (by linarith) hlast
    refine ⟨gridRowsP n s d - 1, by omega, ?_, ?_⟩
    · have hcast : ((gridRowsP n s d - 1 : ℕ) : ℚ) = ((gridRowsP n s d : ℕ) : ℚ) - 1 := by
        have h10 : (1 : ℕ) ≤ gridRowsP n s d := hR1
        push_cast [h10]
        ring
      rw [hcast, hx]
      nlinarith
    · have hcast : ((gridRowsP n s d - 1 : ℕ) : ℚ) = ((gridRowsP n s d : ℕ) : ℚ) - 1 := by
        have h10 : (1 : ℕ) ≤ gridRowsP n s d := hR1
        push_cast [h10]
        ring
      rw [hcast, hx]
      ring_nf
      linarith

theorem disjoint_oneD (s d : ℚ) (hd : 0 < d) (i iq : Nat) (hne : i ≠ iq) (x : ℚ)
    (h1 : s + i * d < x) (h2 : x < s + i * d + d)
    (h3 : s + iq * d < x) (h4 : x < s + iq * d + d) : False := by
  rcases Nat.lt_or_ge i iq with hlt | hge
  · have h5 : (i : ℚ) + 1 ≤ (iq : ℚ) := by exact_mod_cast hlt
    nlinarith
  · have hlt : iq < i := by omega
    have h5 : (iq : ℚ) + 1 ≤ (i : ℚ) := by exact_mod_cast hlt
    nlinarith

@[simp] theorem mkCellP_swLat (s t dLat dLng : ℚ) (i j : Nat) :
    (mkCellP s t dLat dLng i j).swLat = s + i * dLat := rfl

@[simp] theorem mkCellP_neLat (s t dLat dLng : ℚ) (i j : Nat) :
    (mkCellP s t dLat dLng i j).neLat = s + i * dLat + dLat := rfl

@[simp] theorem mkCellP_swLng (s t dLat dLng : ℚ) (i j : Nat) :
    (mkCellP s t dLat dLng i j).swLng = t + j * dLng := rfl

@[simp] theorem mkCellP_neLng (s t dLat dLng : ℚ) (i j : Nat) :
    (mkCellP s t dLat dLng i j).neLng = t + j * dLng + dLng := rfl

@[simp] theorem mkCellP_row (s t dLat dLng : ℚ) (i j : Nat) :
    (mkCellP s t dLat dLng i j).row = i := rfl

@[simp] theorem mkCellP_col (s t dLat dLng : ℚ) (i j : Nat) :
    (mkCellP s t dLat dLng i j).col = j := rfl

@[simp] theorem mkCellP_cell_id (s t dLat dLng : ℚ) (i j : Nat) :
    (mkCellP s t dLat dLng i j).cell_id = mkCellId i j := rfl

theorem create_optimal_grid_eq (neLat neLng swLat swLng dLat dLng : ℚ)
    (g : List GridCell)
    (hg : create_optimal_grid neLat neLng swLat swLng dLat dLng = some g) :
    g = gridLoop (mkCellP swLat swLng dLat dLng)
      (gridRowsP neLat swLat dLat) (gridColsP neLng swLng dLng) := by
  simp only [create_optimal_grid] at hg
  by_cases hce : gridRowsP neLat swLat dLat * gridColsP neLng swLng dLng > 100000
  · rw [if_pos hce] at hg
    exact absurd hg (by simp)
  · rw [if_neg hce] at hg
    exact (Option.some.inj hg).symm

/-- C4: for every proper bounding box and positive cell sizes, the grid
returned by `create_optimal_grid` tiles the box: every point of the box
lies in some cell, cell interiors are pairwise disjoint, each interior
cell boundary is shared with the adjacent cell, cells never start
before the box's south/west edge, non-last rows/columns stay strictly
inside the north/east bound, and the last row/column reaches at least
the north/east bound (it may extend past it, never under-cover). -/
theorem C4_grid_tiling (neLat neLng swLat swLng dLat dLng : ℚ) (g : List GridCell)
    (hdLat : 0 < dLat) (hdLng : 0 < dLng)
    (hlat : swLat < neLat) (hlng : swLng < neLng)
    (hg : create_optimal_grid neLat neLng swLat swLng dLat dLng = some g) :
    (∀ lat lng : ℚ, swLat ≤ lat → lat ≤ neLat → swLng ≤ lng → lng ≤ neLng →
        ∃ c ∈ g, c.swLat ≤ lat ∧ lat ≤ c.neLat ∧ c.swLng ≤ lng ∧ lng ≤ c.neLng) ∧
    (∀ c1 ∈ g, ∀ c2 ∈ g, c1 ≠ c2 →
        ∀ lat lng : ℚ, c1.swLat < lat → lat < c1.neLat →
          c1.swLng < lng → lng < c1.neLng →
          ¬(c2.swLat < lat ∧ lat < c2.neLat ∧ c2.swLng < lng ∧ lng < c2.neLng)) ∧
    (∀ c ∈ g, c.row + 1 < gridRowsP neLat swLat dLat →
        ∃ c2 ∈ g, c2.row = c.row + 1 ∧ c2.col = c.col ∧ c2.swLat = c.neLat ∧
          c2.swLng = c.swLng ∧ c2.neLng = c.neLng) ∧
    (∀ c ∈ g, c.col + 1 < gridColsP neLng swLng dLng →
        ∃ c2 ∈ g, c2.col = c.col + 1 ∧ c2.row = c.row ∧ c2.swLng = c.neLng ∧
          c2.swLat = c.swLat ∧ c2.neLat = c.neLat) ∧
    (∀ c ∈ g, swLat ≤ c.swLat ∧ swLng ≤ c.swLng ∧
        (c.row + 1 < gridRowsP neLat swLat dLat → c.neLat < neLat) ∧
        (c.col + 1 < gridColsP neLng swLng dLng → c.neLng < neLng) ∧
        (c.row + 1 = gridRowsP neLat swLat dLat → neLat ≤ c.neLat) ∧
        (c.col + 1 = gridColsP neLng swLng dLng → neLng ≤ c.neLng)) := by
  have hgl := create_optimal_grid_eq neLat neLng swLat swLng dLat dLng g hg
  subst hgl
  refine ⟨?_, ?_, ?_, ?_, ?_⟩
  · -- coverage
    intro lat lng h1 h2 h3 h4
    obtain ⟨i, hi, hia, hib⟩ := covers_oneD neLat swLat dLat lat hdLat hlat h1 h2
    obtain ⟨j, hj, hja, hjb⟩ := covers_oneD neLng swLng dLng lng hdLng hlng h3 h4
    refine ⟨mkCellP swLat swLng dLat dLng i j,
      (mem_gridLoop _ _ _ _).mpr ⟨i, hi, j, hj, rfl⟩, ?_, ?_, ?_, ?_⟩ <;> simp <;> nlinarith
  · -- disjoint interiors
    intro c1 hc1 c2 hc2 hne lat lng ha1 ha2 ha3 ha4 hcontra
    obtain ⟨i1, hi1, j1, hj1, he1⟩ := (mem_gridLoop _ _ _ _).mp hc1
    obtain ⟨i2, hi2, j2, hj2, he2⟩ := (mem_gridLoop _ _ _ _).mp hc2
    subst he1
    subst he2
    obtain ⟨hb1, hb2, hb3, hb4⟩ := hcontra
    simp only [mkCellP_swLat, mkCellP_neLat, mkCellP_swLng, mkCellP_neLng]
      at ha1 ha2 ha3 ha4 hb1 hb2 hb3 hb4
    by_cases hii : i1 = i2
    · by_cases hjj : j1 = j2
      · exact hne (by rw [hii, hjj])
      · exact disjoint_oneD swLng dLng hdLng j1 j2 hjj lng ha3 ha4 hb3 hb4
    · exact disjoint_oneD swLat dLat hdLat i1 i2 hii lat ha1 ha2 hb1 hb2
  · -- shared boundary between vertically adjacent cells
    intro c hc hrow
    obtain ⟨i, hi, j, hj, he⟩ := (mem_gridLoop _ _ _ _).mp hc
    subst he
    simp only [mkCellP_row, mkCellP_col] at hrow ⊢
    refine ⟨mkCellP swLat swLng dLat dLng (i + 1) j,
      (mem_gridLoop _ _ _ _).mpr ⟨i + 1, by omega, j, hj, rfl⟩, by simp, by simp, ?_, by simp, by simp⟩
    simp only [mkCellP_swLat, mkCellP_neLat]
    push_cast
    ring
  · -- shared boundary between horizontally adjacent cells
    intro c hc hcol
    obtain ⟨i, hi, j, hj, he⟩ := (mem_gridLoop _ _ _ _).mp hc
    subst he
    simp only [mkCellP_row, mkCellP_col] at hcol ⊢
    refine ⟨mkCellP swLat swLng dLat dLng i (j + 1),
      (mem_gridLoop _ _ _ _).mpr ⟨i, hi, j + 1, by omega, rfl⟩, by simp, by simp, ?_, by simp, by simp⟩
    simp only [mkCellP_swLng, mkCellP_neLng]
    push_cast
    ring
  · -- never under-cover; only last row/column extends past the bound
    intro c hc
    obtain ⟨i, hi, j, hj, he⟩ := (mem_gridLoop _ _ _ _).mp hc
    subst he
    simp only [mkCellP_swLat, mkCellP_neLat, mkCellP_swLng, mkCellP_neLng,
      mkCellP_row, mkCellP_col]
    refine ⟨?_, ?_, ?_, ?_, ?_, ?_⟩
    · have : (0 : ℚ) ≤ (i : ℚ) * dLat := mul_nonneg (Nat.cast_nonneg i) hdLat.le
      linarith
    · have : (0 : ℚ) ≤ (j : ℚ) * dLng := mul_nonneg (Nat.cast_nonneg j) hdLng.le
      linarith
    · intro hin
      have := gridRowsP_inner_lt neLat swLat dLat hdLat hlat i hin
      nlinarith
    · intro hin
      have := gridRowsP_inner_lt neLng swLng dLng hdLng hlng j hin
      nlinarith
    · intro hlast
      have hmul := gridRowsP_mul_ge neLat swLat dLat hdLat hlat
      have hcast : ((i : ℚ) + 1) = ((gridRowsP neLat swLat dLat : ℕ) : ℚ) := by
        exact_mod_cast congrArg (fun m : ℕ => (m : ℚ)) hlast
      nlinarith
    · intro hlast
      have hmul := gridRowsP_mul_ge neLng swLng dLng hdLng hlng
      have hRC : gridRowsP neLng swLng dLng = gridColsP neLng swLng dLng := rfl
      rw [hRC] at hmul
      have hcast : ((j : ℚ) + 1) = ((gridColsP neLng swLng dLng : ℕ) : ℚ) := by
        exact_mod_cast congrArg (fun m : ℕ => (m : ℚ)) hlast
      nlinarith

theorem C4_grid_tiling_witness :
    (∀ lat lng : ℚ, 0 ≤ lat → lat ≤ 1 → 0 ≤ lng → lng ≤ 1 →
        ∃ c ∈ gridLoop (mkCellP 0 0 (1/2) (1/2)) (gridRowsP 1 0 (1/2)) (gridColsP 1 0 (1/2)),
          c.swLat ≤ lat ∧ lat ≤ c.neLat ∧ c.swLng ≤ lng ∧ lng ≤ c.neLng) ∧
    (∀ c1 ∈ gridLoop (mkCellP 0 0 (1/2) (1/2)) (gridRowsP 1 0 (1/2)) (gridColsP 1 0 (1/2)),
        ∀ c2 ∈ gridLoop (mkCellP 0 0 (1/2) (1/2)) (gridRowsP 1 0 (1/2)) (gridColsP 1 0 (1/2)),
        c1 ≠ c2 →
        ∀ lat lng : ℚ, c1.swLat < lat → lat < c1.neLat →
          c1.swLng < lng → lng < c1.neLng →
          ¬(c2.swLat < lat ∧ lat < c2.neLat ∧ c2.swLng < lng ∧ lng < c2.neLng)) ∧
    (∀ c ∈ gridLoop (mkCellP 0 0 (1/2) (1/2)) (gridRowsP 1 0 (1/2)) (gridColsP 1 0 (1/2)),
        c.row + 1 < gridRowsP 1 0 (1/2) →
        ∃ c2 ∈ gridLoop (mkCellP 0 0 (1/2) (1/2)) (gridRowsP 1 0 (1/2)) (gridColsP 1 0 (1/2)),
          c2.row = c.row + 1 ∧ c2.col = c.col ∧ c2.swLat = c.neLat ∧
          c2.swLng = c.swLng ∧ c2.neLng = c.neLng) ∧
    (∀ c ∈ gridLoop (mkCellP 0 0 (1/2) (1/2)) (gridRowsP 1 0 (1/2)) (gridColsP 1 0 (1/2)),
        c.col + 1 < gridColsP 1 0 (1/2) →
        ∃ c2 ∈ gridLoop (mkCellP 0 0 (1/2) (1/2)) (gridRowsP 1 0 (1/2)) (gridColsP 1 0 (1/2)),
          c2.col = c.col + 1 ∧ c2.row = c.row ∧ c2.swLng = c.neLng ∧
          c2.swLat = c.swLat ∧ c2.neLat = c.neLat) ∧
    (∀ c ∈ gridLoop (mkCellP 0 0 (1/2) (1/2)) (gridRowsP 1 0 (1/2)) (gridColsP 1 0 (1/2)),
        (0 : ℚ) ≤ c.swLat ∧ (0 : ℚ) ≤ c.swLng ∧
        (c.row + 1 < gridRowsP 1 0 (1/2) → c.neLat < 1) ∧
        (c.col + 1 < gridColsP 1 0 (1/2) → c.neLng < 1) ∧
        (c.row + 1 = gridRowsP 1 0 (1/2) → (1 : ℚ) ≤ c.neLat) ∧
        (c.col + 1 = gridColsP 1 0 (1/2) → (1 : ℚ) ≤ c.neLng)) :=
  C4_grid_tiling 1 1 0 0 (1/2) (1/2)
    (gridLoop (mkCellP 0 0 (1/2) (1/2)) (gridRowsP 1 0 (1/2)) (gridColsP 1 0 (1/2)))
    (by norm_num) (by norm_num) (by norm_num) (by norm_num)
    (by
      have hr : gridRowsP 1 0 (1/2) = 2 := by
        unfold gridRowsP
        norm_num
        all_goals decide
      have hc : gridColsP 1 0 (1/2) = 2 := by
        unfold gridColsP
        norm_num
        all_goals decide
      simp only [create_optimal_grid]
      rw [if_neg (by rw [hr, hc]; omega)])

/-- C5 (amended): for valid inputs (positive degree cell sizes, a
proper box) within the 100000-cell safety ceiling, the pooled builder
returns exactly `rows × cols` cells with `rows = max 1 ⌈latSpan/cellSizeLat⌉`
and `cols = max 1 ⌈lngSpan/cellSizeLng⌉`, and the enhanced builder
returns `⌈latSpan/cellSizeLat⌉ × ⌈lngSpan/cellSizeLng⌉` cells — on
valid inputs the two counts agree and the flooring at 1 is vacuous.
(The claim's fail-fast half is false; see the counterexample.) -/
theorem C5_grid_count (neLat neLng swLat swLng dLat dLng : ℚ)
    (hdLat : 0 < dLat) (hdLng : 0 < dLng)
    (hlat : swLat < neLat) (hlng : swLng < neLng)
    (hceil : gridRowsP neLat swLat dLat * gridColsP neLng swLng dLng ≤ 100000) :
    (∃ g, create_optimal_grid neLat neLng swLat swLng dLat dLng = some g ∧
        g.length = gridRowsP neLat swLat dLat * gridColsP neLng swLng dLng) ∧
    (create_optimal_grid_enhanced neLat neLng swLat swLng dLat dLng).length =
        gridRowsE neLat swLat dLat * gridColsE neLng swLng dLng ∧
    gridRowsP neLat swLat dLat = gridRowsE neLat swLat dLat ∧
    gridColsP neLng swLng dLng = gridColsE neLng swLng dLng ∧
    1 ≤ gridRowsE neLat swLat dLat ∧ 1 ≤ gridColsE neLng swLng dLng := by
  have hre : gridRowsP neLat swLat dLat = gridRowsE neLat swLat dLat := by
    unfold gridRowsP gridRowsE
    have habs : |neLat - swLat| = neLat - swLat := abs_of_pos (by linarith)
    rw [habs]
    have hc1 : 0 < ⌈(neLat - swLat) / dLat⌉ :=
      Int.ceil_pos.mpr (div_pos (by linarith) hdLat)
    rw [max_eq_right (by omega)]
  have hcee : gridColsP neLng swLng dLng = gridColsE neLng swLng dLng := by
    unfold gridColsP gridColsE
    have habs : |neLng - swLng| = neLng - swLng := abs_of_pos (by linarith)
    rw [habs]
    have hc1 : 0 < ⌈(neLng - swLng) / dLng⌉ :=
      Int.ceil_pos.mpr (div_pos (by linarith) hdLng)
    rw [max_eq_right (by omega)]
  refine ⟨⟨gridLoop (mkCellP swLat swLng dLat dLng)
      (gridRowsP neLat swLat dLat) (gridColsP neLng swLng dLng), ?_,
      gridLoop_length _ _ _⟩,
    gridLoop_length _ _ _, hre, hcee, ?_, ?_⟩
  · simp only [create_optimal_grid]
    rw [if_neg (by omega)]
  · rw [← hre]
    exact gridRowsP_pos _ _ _
  · rw [← hcee]
    exact gridRowsP_pos _ _ _

theorem C5_grid_count_witness :
    (∃ g, create_optimal_grid 1 1 0 0 (1/2) (1/2) = some g ∧
        g.length = gridRowsP 1 0 (1/2) * gridColsP 1 0 (1/2)) ∧
    (create_optimal_grid_enhanced 1 1 0 0 (1/2) (1/2)).length =
        gridRowsE 1 0 (1/2) * gridColsE 1 0 (1/2) ∧
    gridRowsP 1 0 (1/2) = gridRowsE 1 0 (1/2) ∧
    gridColsP 1 0 (1/2) = gridColsE 1 0 (1/2) ∧
    1 ≤ gridRowsE 1 0 (1/2) ∧ 1 ≤ gridColsE 1 0 (1/2) :=
  C5_grid_count 1 1 0 0 (1/2) (1/2) (by norm_num) (by norm_num) (by norm_num) (by norm_num)
    (by
      have hr : gridRowsP 1 0 (1/2) = 2 := by
        unfold gridRowsP
        norm_num
        all_goals decide
      have hc : gridColsP 1 0 (1/2) = 2 := by
        unfold gridColsP
        norm_num
        all_goals decide
      rw [hr, hc]
      omega)

/-- C5 counterexample: the claim asserts that invalid input (degenerate
box with north ≤ south) "fails fast with a clear error rather than
looping or silently returning an empty list" — but the enhanced builder
returns the empty list with no error on a box with north < south, and
the pooled builder silently returns a 1-row grid on a box with
north = south. -/
theorem C5_counterexample :
    create_optimal_grid_enhanced 0 1 1 0 1 1 = [] ∧
    create_optimal_grid 0 1 0 0 1 1 =
      some (gridLoop (mkCellP 0 0 1 1) (gridRowsP 0 0 1) (gridColsP 1 0 1)) ∧
    (gridLoop (mkCellP 0 0 1 1) (gridRowsP 0 0 1) (gridColsP 1 0 1)).length = 1 := by
  have hr0 : gridRowsE 0 1 1 = 0 := by
    unfold gridRowsE
    have h : ((0 : ℚ) - 1)/1 = ((-1 : ℤ) : ℚ) := by norm_num
    rw [h, Int.ceil_intCast]
    decide
  have hr1 : gridRowsP 0 0 1 = 1 := by
    unfold gridRowsP
    norm_num
  have hc1 : gridColsP 1 0 1 = 1 := by
    unfold gridColsP
    norm_num
    all_goals decide
  refine ⟨?_, ?_, ?_⟩
  · unfold create_optimal_grid_enhanced
    rw [hr0]
    rfl
  · simp only [create_optimal_grid]
    rw [if_neg (by rw [hr1, hc1]; omega)]
  · rw [gridLoop_length, hr1, hc1]

/-! ## Decimal digit strings and cell-id injectivity -/

theorem toDigitsCore_eq_digitsOf (fuel : Nat) :
    ∀ (n : Nat) (ds : List Char), n < fuel →
      Nat.toDigitsCore 10 fuel n ds = digitsOf n ++ ds := by
  induction fuel with
  | zero => intro n ds h; omega
  | succ f ih =>
      intro n ds h
      simp only [Nat.toDigitsCore]
      by_cases h10 : n / 10 = 0
      · rw [if_pos h10]
        have hn : n < 10 := (Nat.div_eq_zero_iff (by norm_num)).mp h10
        rw [digitsOf, dif_pos hn]
        have hm : n % 10 = n := Nat.mod_eq_of_lt hn
        rw [hm]
        rfl
      · rw [if_neg h10]
        have hn : ¬(n < 10) := by
          intro hlt
          exact h10 ((Nat.div_eq_zero_iff (by norm_num)).mpr hlt)
        have hrec : n / 10 < f := by
          have h1 : n / 10 < n := Nat.div_lt_self (by omega) (by norm_num)
          omega
        rw [ih _ _ hrec]
        have hexp : digitsOf n = digitsOf (n / 10) ++ [Nat.digitChar (n % 10)] := by
          conv_lhs => rw [digitsOf]
          rw [dif_neg hn]
        rw [hexp, List.append_assoc]
        rfl

theorem toDigits_eq_digitsOf (n : Nat) : Nat.toDigits 10 n = digitsOf n := by
  unfold Nat.toDigits
  rw [toDigitsCore_eq_digitsOf (n + 1) n [] (by omega)]
  simp

theorem chVal_digitChar (m : Nat) (h : m < 10) : chVal (Nat.digitChar m) = m := by
  interval_cases m <;> decide

theorem digitChar_isDigit (m : Nat) (h : m < 10) : (Nat.digitChar m).isDigit = true := by
  interval_cases m <;> decide

theorem digitsOf_isDigit (n : Nat) : ∀ c ∈ digitsOf n, c.isDigit = true := by
  induction n using Nat.strong_induction_on with
  | _ n ih =>
      by_cases h : n < 10
      · rw [digitsOf, dif_pos h]
        intro c hc
        simp at hc
        subst hc
        exact digitChar_isDigit n h
      · rw [digitsOf, dif_neg h]
        intro c hc
        rw [List.mem_append] at hc
        rcases hc with hc | hc
        · exact ih (n / 10) (Nat.div_lt_self (by omega) (by norm_num)) c hc
        · simp at hc
          subst hc
          exact digitChar_isDigit _ (Nat.mod_lt _ (by norm_num))

theorem valOfDigits_append (xs : List Char) (c : Char) :
    valOfDigits (xs ++ [c]) = 10 * valOfDigits xs + chVal c := by
  induction xs with
  | nil => simp [valOfDigits]
  | cons x t ih =>
      simp only [List.cons_append, valOfDigits, List.append_eq, ih, List.length_append,
        List.length_cons, List.length_nil, pow_succ, pow_zero]
      ring

theorem valOfDigits_digitsOf (n : Nat) : valOfDigits (digitsOf n) = n := by
  induction n using Nat.strong_induction_on with
  | _ n ih =>
      by_cases h : n < 10
      · rw [digitsOf, dif_pos h]
        simp [valOfDigits, chVal_digitChar n h]
      · rw [digitsOf, dif_neg h]
        rw [valOfDigits_append, ih (n / 10) (Nat.div_lt_self (by omega) (by norm_num))]
        rw [chVal_digitChar _ (Nat.mod_lt _ (by norm_num))]
        omega

theorem digitsOf_injective (m n : Nat) (h : digitsOf m = digitsOf n) : m = n := by
  have h1 := valOfDigits_digitsOf m
  rw [h, valOfDigits_digitsOf] at h1
  exact h1.symm

theorem digit_split_eq : ∀ (A A2 B B2 : List Char),
    (∀ c ∈ A, c.isDigit = true) → (∀ c ∈ A2, c.isDigit = true) →
    A ++ 'c' :: B = A2 ++ 'c' :: B2 → A = A2 ∧ B = B2 := by
  intro A
  induction A with
  | nil =>
      intro A2 B B2 hA hA2 h
      cases A2 with
      | nil => simpa using h
      | cons a t =>
          exfalso
          simp only [List.nil_append, List.cons_append, List.cons.injEq] at h
          obtain ⟨ha, _⟩ := h
          have hd := hA2 a (by simp)
          rw [← ha] at hd
          exact absurd hd (by decide)
  | cons a t ih =>
      intro A2 B B2 hA hA2 h
      cases A2 with
      | nil =>
          exfalso
          simp only [List.nil_append, List.cons_append, List.cons.injEq] at h
          obtain ⟨ha, _⟩ := h
          have hd := hA a (by simp)
          rw [ha] at hd
          exact absurd hd (by decide)
      | cons a2 t2 =>
          simp only [List.cons_append, List.cons.injEq] at h
          obtain ⟨hh, ht⟩ := h
          obtain ⟨h1, h2⟩ := ih t2 B B2 (fun c hc => hA c (by simp [hc]))
            (fun c hc => hA2 c (by simp [hc])) ht
          exact ⟨by rw [hh, h1], h2⟩

theorem repr_data_eq_digitsOf (n : Nat) : (Nat.repr n).data = digitsOf n := by
  show (Nat.toDigits 10 n).asString.data = digitsOf n
  rw [toDigits_eq_digitsOf]
  rfl

theorem mkCellId_data (i j : Nat) :
    (mkCellId i j).data = 'r' :: (digitsOf i ++ 'c' :: digitsOf j) := by
  unfold mkCellId
  rw [String.data_append, String.data_append, String.data_append,
    repr_data_eq_digitsOf, repr_data_eq_digitsOf]
  simp

theorem mkCellId_injective (i j i2 j2 : Nat) (h : mkCellId i j = mkCellId i2 j2) :
    i = i2 ∧ j = j2 := by
  have hd2 : (mkCellId i j).data = (mkCellId i2 j2).data := by rw [h]
  rw [mkCellId_data, mkCellId_data] at hd2
  obtain ⟨-, htail⟩ := List.cons.inj hd2
  obtain ⟨hA, hB⟩ := digit_split_eq (digitsOf i) (digitsOf i2) (digitsOf j) (digitsOf j2)
    (digitsOf_isDigit i) (digitsOf_isDigit i2) htail
  exact ⟨digitsOf_injective _ _ hA, digitsOf_injective _ _ hB⟩

/-- C10: the grid builder emits cells in row-major order — for every
row index `i` and column index `j` in range, the cell at list position
`i * cols + j` has `row = i`, `col = j` and `cell_id = "r{i}c{j}"` —
and consequently all cell ids in the returned grid are distinct. -/
theorem C10_row_major_distinct_ids (neLat neLng swLat swLng dLat dLng : ℚ)
    (g : List GridCell)
    (hg : create_optimal_grid neLat neLng swLat swLng dLat dLng = some g) :
    (∀ i j, i < gridRowsP neLat swLat dLat → j < gridColsP neLng swLng dLng →
        ∃ c, g[i * gridColsP neLng swLng dLng + j]? = some c ∧
          c.row = i ∧ c.col = j ∧ c.cell_id = mkCellId i j) ∧
    (g.map (fun c => c.cell_id)).Nodup := by
  have hgl := create_optimal_grid_eq neLat neLng swLat swLng dLat dLng g hg
  subst hgl
  constructor
  · intro i j hi hj
    exact ⟨mkCellP swLat swLng dLat dLng i j,
      gridLoop_get? (mkCellP swLat swLng dLat dLng) _ _ i j hi hj, rfl, rfl, rfl⟩
  · rw [gridLoop_eq_map, List.map_map]
    apply List.Nodup.map_on ?_ (List.nodup_range _)
    intro x hx y hy hxy
    simp only [Function.comp, mkCellP_cell_id] at hxy
    obtain ⟨h1, h2⟩ := mkCellId_injective _ _ _ _ hxy
    have hdx := Nat.div_add_mod x (gridColsP neLng swLng dLng)
    have hdy := Nat.div_add_mod y (gridColsP neLng swLng dLng)
    rw [h1, h2] at hdx
    omega

theorem C10_row_major_witness :
    (∀ i j, i < gridRowsP 1 0 (1/2) → j < gridColsP 1 0 (1/2) →
        ∃ c, (gridLoop (mkCellP 0 0 (1/2) (1/2)) (gridRowsP 1 0 (1/2))
            (gridColsP 1 0 (1/2)))[i * gridColsP 1 0 (1/2) + j]? = some c ∧
          c.row = i ∧ c.col = j ∧ c.cell_id = mkCellId i j) ∧
    ((gridLoop (mkCellP 0 0 (1/2) (1/2)) (gridRowsP 1 0 (1/2))
        (gridColsP 1 0 (1/2))).map (fun c => c.cell_id)).Nodup :=
  C10_row_major_distinct_ids 1 1 0 0 (1/2) (1/2)
    (gridLoop (mkCellP 0 0 (1/2) (1/2)) (gridRowsP 1 0 (1/2)) (gridColsP 1 0 (1/2)))
    (by
      have hr : gridRowsP 1 0 (1/2) = 2 := by
        unfold gridRowsP
        norm_num
        all_goals decide
      have hc : gridColsP 1 0 (1/2) = 2 := by
        unfold gridColsP
        norm_num
        all_goals decide
      simp only [create_optimal_grid]
      rw [if_neg (by rw [hr, hc]; omega)])

/-! ## Scheduler: the max-results dispatch guard -/

theorem schedRun_append (yields : Nat → Nat) (maxR : Nat) (s : SchedState)
    (t1 t2 : List SchedEv) :
    schedRun yields maxR s (t1 ++ t2) =
      match schedRun yields maxR s t1 with
      | none => none
      | some s1 => schedRun yields maxR s1 t2 := by
  induction t1 generalizing s with
  | nil => simp [schedRun]
  | cons e es ih =>
      simp only [List.cons_append, schedRun]
      cases schedStep yields maxR s e with
      | none => rfl
      | some s1 => exact ih s1

theorem sched_no_submit_after_cap (yields : Nat → Nat) (maxR : Nat) :
    ∀ (t2 : List SchedEv) (s1 s2 : SchedState),
      schedRun yields maxR s1 t2 = some s2 → maxR ≤ s1.count →
      hasSubmit t2 = false ∧ s1.count ≤ s2.count ∧
      s2.count ≤ s1.count + (s1.inFlight.map yields).sum := by
  intro t2
  induction t2 with
  | nil =>
      intro s1 s2 h hcap
      simp only [schedRun] at h
      cases h
      exact ⟨rfl, le_refl _, by omega⟩
  | cons e es ih =>
      intro s1 s2 h hcap
      cases e with
      | submitCell c =>
          exfalso
          simp only [schedRun, schedStep] at h
          rw [if_neg (by omega)] at h
          exact Option.noConfusion h
      | finishCell c =>
          simp only [schedRun] at h
          cases hstep : schedStep yields maxR s1 (SchedEv.finishCell c) with
          | none =>
              rw [hstep] at h
              exact absurd h (by simp)
          | some s1b =>
              rw [hstep] at h
              simp only [schedStep] at hstep
              by_cases hmem : s1.inFlight.contains c
              · rw [if_pos hmem] at hstep
                injection hstep with hstep
                subst hstep
                obtain ⟨hns, hmono, hbound⟩ :=
                  ih _ _ h (by show maxR ≤ s1.count + yields c; omega)
                have hcmem : c ∈ s1.inFlight := List.elem_iff.mp hmem
                have hperm : List.Perm (s1.inFlight.map yields)
                    (yields c :: (s1.inFlight.erase c).map yields) := by
                  have hp := List.perm_cons_erase hcmem
                  have hpm := hp.map yields
                  simpa using hpm
                have hsum : (s1.inFlight.map yields).sum =
                    yields c + ((s1.inFlight.erase c).map yields).sum := by
                  rw [hperm.sum_eq]
                  simp
                refine ⟨?_, ?_, ?_⟩
                · simp only [hasSubmit] at hns ⊢
                  simpa using hns
                · simp at hmono
                  omega
                · simp at hbound
                  omega
              · rw [if_neg hmem] at hstep
                exact absurd hstep (by simp)

/-- C7: when `maxResults` is set, every dispatch is guarded by the
check `count < maxResults`, so once the accumulated listing count has
reached the cap no new cell is ever dispatched afterwards, while
already-dispatched in-flight cells may still finish; the final count
therefore exceeds the cap only by the yields of the cells that were in
flight when the cap was reached. -/
theorem C7_max_results_guard (yields : Nat → Nat) (maxR : Nat)
    (t1 t2 : List SchedEv) (s1 s2 : SchedState)
    (h1 : schedRun yields maxR ⟨0, []⟩ t1 = some s1)
    (h2 : schedRun yields maxR ⟨0, []⟩ (t1 ++ t2) = some s2)
    (hcap : maxR ≤ s1.count) :
    hasSubmit t2 = false ∧
    s2.count ≤ s1.count + (s1.inFlight.map yields).sum := by
  rw [schedRun_append, h1] at h2
  obtain ⟨hns, _, hbound⟩ := sched_no_submit_after_cap yields maxR t2 s1 s2 h2 hcap
  exact ⟨hns, hbound⟩

theorem C7_max_results_witness :
    hasSubmit [SchedEv.finishCell 2] = false ∧
    (⟨15, ([] : List Nat)⟩ : SchedState).count ≤
      (⟨10, [2]⟩ : SchedState).count +
        (((⟨10, [2]⟩ : SchedState).inFlight).map (fun _ => 5)).sum :=
  C7_max_results_guard (fun _ => 5) 10
    [SchedEv.submitCell 0, SchedEv.submitCell 1, SchedEv.submitCell 2,
      SchedEv.finishCell 0, SchedEv.finishCell 1]
    [SchedEv.finishCell 2] ⟨10, [2]⟩ ⟨15, []⟩
    (by decide) (by decide) (by decide)

/-! ## Deduplicated insertion -/

theorem getq_lt_length {α : Type} (l : List α) (i : Nat) (a : α)
    (h : l.get? i = some a) : i < l.length := by
  induction l generalizing i with
  | nil => simp [List.get?] at h
  | cons x t ih =>
      cases i with
      | zero => simp
      | succ n =>
          simp only [List.get?] at h
          have := ih n h
          simp only [List.length_cons]
          omega

theorem getq_mem {α : Type} (l : List α) (i : Nat) (a : α)
    (h : l.get? i = some a) : a ∈ l := by
  induction l generalizing i with
  | nil => simp [List.get?] at h
  | cons x t ih =>
      cases i with
      | zero =>
          simp only [List.get?] at h
          cases h
          exact List.mem_cons_self _ _
      | succ n =>
          simp only [List.get?] at h
          exact List.mem_cons_of_mem _ (ih n h)

theorem getq_append {α : Type} (l l2 : List α) (i : Nat) (h : i < l.length) :
    (l ++ l2).get? i = l.get? i := by
  induction l generalizing i with
  | nil => simp at h
  | cons x t ih =>
      cases i with
      | zero => rfl
      | succ n =>
          simp only [List.length_cons] at h
          simp only [List.cons_append, List.get?]
          exact ih n (by omega)

theorem getq_concat_length {α : Type} (l : List α) (a : α) :
    (l ++ [a]).get? l.length = some a := by
  induction l with
  | nil => rfl
  | cons x t ih => simpa using ih

theorem getq_set_self {α : Type} (l : List α) (i : Nat) (a b : α)
    (h : l.get? i = some a) : (l.set i b).get? i = some b := by
  induction l generalizing i with
  | nil => simp [List.get?] at h
  | cons x t ih =>
      cases i with
      | zero => rfl
      | succ n =>
          simp only [List.get?] at h
          simp only [List.set, List.get?]
          exact ih n h

theorem getq_set_ne {α : Type} (l : List α) (i j : Nat) (b : α) (h : i ≠ j) :
    (l.set i b).get? j = l.get? j := by
  induction l generalizing i j with
  | nil => simp [List.set]
  | cons x t ih =>
      cases i with
      | zero =>
          cases j with
          | zero => exact absurd rfl h
          | succ m => rfl
      | succ n =>
          cases j with
          | zero => rfl
          | succ m =>
              simp only [List.set, List.get?]
              exact ih n m (by omega)

theorem mem_set_or {α : Type} (l : List α) (i : Nat) (b x : α)
    (h : x ∈ l.set i b) : x ∈ l ∨ x = b := by
  induction l generalizing i with
  | nil => simp [List.set] at h
  | cons y t ih =>
      cases i with
      | zero =>
          rcases List.mem_cons.mp h with he | ht
      <;> [exact Or.inr he; exact Or.inl (List.mem_cons_of_mem _ ht)]
      | succ n =>
          rcases List.mem_cons.mp h with he | ht
          · exact Or.inl (he ▸ List.mem_cons_self _ _)
          · rcases ih n ht with h2 | h2
            · exact Or.inl (List.mem_cons_of_mem _ h2)
            · exact Or.inr h2

theorem map_set_key (l : List Listing) (i : Nat) (q q2 : Listing)
    (hq : l.get? i = some q) (hk : listingKey q2 = listingKey q) :
    (l.set i q2).map listingKey = l.map listingKey := by
  induction l generalizing i with
  | nil => simp [List.set]
  | cons x t ih =>
      cases i with
      | zero =>
          simp only [List.get?] at hq
          cases hq
          simp only [List.set, List.map]
          rw [hk]
      | succ n =>
          simp only [List.get?] at hq
          simp only [List.set, List.map]
          rw [ih n hq]

theorem dedupInv_init : DedupInv initResults := by
  unfold DedupInv initResults
  refine ⟨by simp, ?_, ?_⟩
  · intro key idx h
    simp [lookupD] at h
  · intro q hq
    simp at hq

theorem dedupInv_add (s : ResultsState) (p : Listing) (h : DedupInv s) :
    DedupInv (add_place s p) := by
  obtain ⟨hnd, hmap, hseen⟩ := h
  cases hl : lookupD s.seen_businesses (listingKey p) with
  | none =>
      simp only [add_place, hl]
      refine ⟨?_, ?_, ?_⟩
      · have hnotin : listingKey p ∉ s.results.map listingKey := by
          intro hmem
          rw [List.mem_map] at hmem
          obtain ⟨q, hq, hkq⟩ := hmem
          have hsq := hseen q hq
          rw [hkq] at hsq
          rw [lookupD_eq_none_iff] at hl
          rw [hl] at hsq
          exact Bool.noConfusion hsq
        rw [List.map_append]
        rw [List.nodup_append]
        refine ⟨hnd, by simp, ?_⟩
        intro a ha
        simp only [List.map, List.mem_singleton]
        intro he
        rw [he] at ha
        exact hnotin ha
      · intro key idx hk
        by_cases hkey : key = listingKey p
        · subst hkey
          rw [lookupD_insertD_self] at hk
          cases hk
          exact ⟨p, getq_concat_length _ _, rfl⟩
        · rw [lookupD_insertD_ne _ _ _ _ hkey] at hk
          obtain ⟨q, hget, hkq⟩ := hmap key idx hk
          exact ⟨q, by rw [getq_append _ _ _ (getq_lt_length _ _ _ hget)]; exact hget, hkq⟩
      · intro q hq
        rw [List.mem_append] at hq
        rcases hq with hq | hq
        · have hs := hseen q hq
          rw [memD_iff_mem_keysD] at hs ⊢
          exact (mem_keysD_insertD _ _ _ _).mpr (Or.inr hs)
        · simp at hq
          subst hq
          rw [memD_iff_mem_keysD]
          exact (mem_keysD_insertD _ _ _ _).mpr (Or.inl rfl)
  | some idx =>
      cases hq : s.results.get? idx with
      | none =>
          simp only [add_place, hl, hq]
          exact ⟨hnd, hmap, hseen⟩
      | some q =>
          simp only [add_place, hl, hq]
          by_cases hcond : p.email ≠ "" ∧ q.email = ""
          · rw [if_pos hcond]
            refine ⟨?_, ?_, ?_⟩
            · show (List.map listingKey (s.results.set idx { q with email := p.email })).Nodup
              rw [map_set_key s.results idx q { q with email := p.email } hq rfl]
              exact hnd
            · intro key2 idx2 hk2
              obtain ⟨q2, hget2, hkq2⟩ := hmap key2 idx2 hk2
              by_cases hii : idx = idx2
              · subst hii
                rw [hq] at hget2
                cases hget2
                exact ⟨{ q with email := p.email }, getq_set_self _ _ _ _ hq, hkq2⟩
              · refine ⟨q2, ?_, hkq2⟩
                show (s.results.set idx { q with email := p.email }).get? idx2 = some q2
                rw [getq_set_ne _ _ _ _ hii]
                exact hget2
            · intro q2 hq2
              rcases mem_set_or _ _ _ _ hq2 with hq2 | hq2
              · exact hseen q2 hq2
              · subst hq2
                exact hseen q (getq_mem _ _ _ hq)
          · rw [if_neg hcond]
            exact ⟨hnd, hmap, hseen⟩

theorem dedupInv_adds (s : ResultsState) (L : List Listing) (h : DedupInv s) :
    DedupInv (add_places s L) := by
  induction L generalizing s with
  | nil => exact h
  | cons p t ih => exact ih _ (dedupInv_add s p h)

theorem add_place_length_of_seen (s : ResultsState) (p : Listing)
    (hmem : memD s.seen_businesses (listingKey p) = true) :
    (add_place s p).results.length = s.results.length := by
  cases hl : lookupD s.seen_businesses (listingKey p) with
  | none =>
      rw [lookupD_eq_none_iff] at hl
      rw [hl] at hmem
      exact Bool.noConfusion hmem
  | some idx =>
      cases hq : s.results.get? idx with
      | none => simp only [add_place, hl, hq]
      | some q =>
          simp only [add_place, hl, hq]
          by_cases hcond : p.email ≠ "" ∧ q.email = ""
          · rw [if_pos hcond]
            simp
          · rw [if_neg hcond]

theorem add_place_mutation_of_seen (s : ResultsState) (p : Listing)
    (hmem : memD s.seen_businesses (listingKey p) = true) :
    ∀ i q2, (add_place s p).results.get? i = some q2 →
      ∃ q, s.results.get? i = some q ∧
        (q2 = q ∨ (q2 = { q with email := p.email } ∧ q.email = "" ∧ p.email ≠ "")) := by
  cases hl : lookupD s.seen_businesses (listingKey p) with
  | none =>
      rw [lookupD_eq_none_iff] at hl
      rw [hl] at hmem
      exact Bool.noConfusion hmem
  | some idx =>
      cases hq : s.results.get? idx with
      | none =>
          simp only [add_place, hl, hq]
          exact fun i q2 hget => ⟨q2, hget, Or.inl rfl⟩
      | some q =>
          simp only [add_place, hl, hq]
          by_cases hcond : p.email ≠ "" ∧ q.email = ""
          · rw [if_pos hcond]
            intro i q2 hget
            have hget2 : (s.results.set idx { q with email := p.email }).get? i =
                some q2 := hget
            by_cases hii : idx = i
            · subst hii
              rw [getq_set_self _ _ _ _ hq] at hget2
              cases hget2
              exact ⟨q, hq, Or.inr ⟨rfl, hcond.2, hcond.1⟩⟩
            · rw [getq_set_ne _ _ _ _ hii] at hget2
              exact ⟨q2, hget2, Or.inl rfl⟩
          · rw [if_neg hcond]
            exact fun i q2 hget => ⟨q2, hget, Or.inl rfl⟩

theorem add_place_seen_mono (s : ResultsState) (p : Listing) (k : String × String)
    (h : memD s.seen_businesses k = true) :
    memD (add_place s p).seen_businesses k = true := by
  cases hl : lookupD s.seen_businesses (listingKey p) with
  | none =>
      simp only [add_place, hl]
      rw [memD_iff_mem_keysD] at h ⊢
      exact (mem_keysD_insertD _ _ _ _).mpr (Or.inr h)
  | some idx =>
      cases hq : s.results.get? idx with
      | none =>
          simp only [add_place, hl, hq]
          exact h
      | some q =>
          simp only [add_place, hl, hq]
          by_cases hcond : p.email ≠ "" ∧ q.email = ""
          · rw [if_pos hcond]
            exact h
          · rw [if_neg hcond]
            exact h

theorem add_place_seen_self (s : ResultsState) (p : Listing) :
    memD (add_place s p).seen_businesses (listingKey p) = true := by
  by_cases hm : memD s.seen_businesses (listingKey p) = true
  · exact add_place_seen_mono s p _ hm
  · have hl : lookupD s.seen_businesses (listingKey p) = none := by
      rw [lookupD_eq_none_iff]
      cases hb : memD s.seen_businesses (listingKey p)
      · rfl
      · exact absurd hb hm
    simp only [add_place, hl]
    rw [memD_iff_mem_keysD]
    exact (mem_keysD_insertD _ _ _ _).mpr (Or.inl rfl)

theorem add_places_seen_mono (L : List Listing) :
    ∀ (s : ResultsState) (k : String × String), memD s.seen_businesses k = true →
      memD (add_places s L).seen_businesses k = true := by
  induction L with
  | nil => exact fun s k h => h
  | cons p t ih => exact fun s k h => ih _ _ (add_place_seen_mono s p k h)

theorem add_places_seen_all (s : ResultsState) (L : List Listing) :
    ∀ p ∈ L, memD (add_places s L).seen_businesses (listingKey p) = true := by
  induction L generalizing s with
  | nil =>
      intro p hp
      simp at hp
  | cons q t ih =>
      intro p hp
      rcases List.mem_cons.mp hp with he | hp2
      · subst he
        exact add_places_seen_mono t _ _ (add_place_seen_self s p)
      · exact ih (add_place s q) p hp2

theorem add_places_length_of_seen (s : ResultsState) (L : List Listing)
    (hall : ∀ p ∈ L, memD s.seen_businesses (listingKey p) = true) :
    (add_places s L).results.length = s.results.length := by
  induction L generalizing s with
  | nil => rfl
  | cons p t ih =>
      show (add_places (add_place s p) t).results.length = s.results.length
      have h1 := add_place_length_of_seen s p (hall p (by simp))
      have h2 : ∀ q ∈ t, memD (add_place s p).seen_businesses (listingKey q) = true :=
        fun q hq => add_place_seen_mono s p _ (hall q (by simp [hq]))
      rw [ih (add_place s p) h2, h1]

/-- C6: after any sequence of deduplicated insertions from an empty
result state, no two entries of the result list share a
`(name, address)` key; inserting a listing whose key is already present
leaves the list length unchanged and mutates at most the matching
entry, and only to backfill a missing email; hence running the same
batch of listings through the insertion twice does not grow the result
count. -/
theorem C6_dedup_insert (L : List Listing) :
    ((add_places initResults L).results.map listingKey).Nodup ∧
    (∀ p : Listing,
        memD (add_places initResults L).seen_businesses (listingKey p) = true →
        (add_place (add_places initResults L) p).results.length =
          (add_places initResults L).results.length ∧
        (∀ i q2, (add_place (add_places initResults L) p).results.get? i = some q2 →
            ∃ q, (add_places initResults L).results.get? i = some q ∧
              (q2 = q ∨ (q2 = { q with email := p.email } ∧
                q.email = "" ∧ p.email ≠ "")))) ∧
    (add_places (add_places initResults L) L).results.length =
        (add_places initResults L).results.length := by
  refine ⟨(dedupInv_adds initResults L dedupInv_init).1, ?_, ?_⟩
  · intro p hp
    exact ⟨add_place_length_of_seen _ p hp, add_place_mutation_of_seen _ p hp⟩
  · exact add_places_length_of_seen _ L (add_places_seen_all initResults L)

theorem C6_dedup_insert_witness :
    ((add_places initResults
        [⟨"A", "addr", "", "", ""⟩, ⟨"B", "addr2", "", "", ""⟩]).results.map
          listingKey).Nodup ∧
    (add_place (add_places initResults
        [⟨"A", "addr", "", "", ""⟩, ⟨"B", "addr2", "", "", ""⟩])
        ⟨"A", "addr", "x@y.com", "", ""⟩).results.length =
      (add_places initResults
        [⟨"A", "addr", "", "", ""⟩, ⟨"B", "addr2", "", "", ""⟩]).results.length ∧
    (add_places (add_places initResults
        [⟨"A", "addr", "", "", ""⟩, ⟨"B", "addr2", "", "", ""⟩])
        [⟨"A", "addr", "", "", ""⟩, ⟨"B", "addr2", "", "", ""⟩]).results.length =
      (add_places initResults
        [⟨"A", "addr", "", "", ""⟩, ⟨"B", "addr2", "", "", ""⟩]).results.length :=
  ⟨(C6_dedup_insert [⟨"A", "addr", "", "", ""⟩, ⟨"B", "addr2", "", "", ""⟩]).1,
    ((C6_dedup_insert [⟨"A", "addr", "", "", ""⟩, ⟨"B", "addr2", "", "", ""⟩]).2.1
      ⟨"A", "addr", "x@y.com", "", ""⟩ (by decide)).1,
    (C6_dedup_insert [⟨"A", "addr", "", "", ""⟩, ⟨"B", "addr2", "", "", ""⟩]).2.2⟩

/-! ## Subdivider (modelled from the spec) and bounds fallback -/

/-- C2 (modelled from the spec — no subdivision routine exists under
`src/`): `shouldSubdivide` returns true iff
`resultCount ≥ resultsThreshold` and `depth < maxDivisions` and both
cell dimensions exceed `2 × minCellSizeDegrees`; the default thresholds
carry `resultsThreshold = 40`; and `subdivide` splits a parent cell
into exactly the 2×2 list of its four quadrant children. -/
theorem C2_subdivision (resultCount depth : Nat) (w h : ℚ) (t : SubdivThresholds)
    (c : GridCell) :
    (shouldSubdivide resultCount depth w h t = true ↔
      (t.resultsThreshold ≤ resultCount ∧ depth < t.maxDivisions ∧
        2 * t.minCellSizeDegrees < w ∧ 2 * t.minCellSizeDegrees < h)) ∧
    (∀ (maxDiv : Nat) (minCell : ℚ),
        (defaultThresholds maxDiv minCell).resultsThreshold = 40) ∧
    subdivide c = [quadrant c 0 0, quadrant c 0 1, quadrant c 1 0, quadrant c 1 1] ∧
    (subdivide c).length = 4 ∧
    (∀ i j : Nat, i < 2 → j < 2 →
      (quadrant c i j).swLat = c.swLat + i * ((c.neLat - c.swLat) / 2) ∧
      (quadrant c i j).neLat =
        c.swLat + i * ((c.neLat - c.swLat) / 2) + (c.neLat - c.swLat) / 2 ∧
      (quadrant c i j).swLng = c.swLng + j * ((c.neLng - c.swLng) / 2) ∧
      (quadrant c i j).neLng =
        c.swLng + j * ((c.neLng - c.swLng) / 2) + (c.neLng - c.swLng) / 2) := by
  refine ⟨?_, fun _ _ => rfl, rfl, rfl, ?_⟩
  · unfold shouldSubdivide
    simp only [Bool.and_eq_true, decide_eq_true_eq]
    tauto
  · intro i j hi hj
    exact ⟨rfl, rfl, rfl, rfl⟩

theorem C2_subdivision_witness :
    shouldSubdivide 41 0 1 1 (defaultThresholds 4 (1/100)) = true ∧
    (subdivide (mkCellP 0 0 1 1 0 0)).length = 4 ∧
    (quadrant (mkCellP 0 0 1 1 0 0) 0 1).swLat =
      (mkCellP 0 0 1 1 0 0).swLat +
        ((0 : Nat) : ℚ) *
          (((mkCellP 0 0 1 1 0 0).neLat - (mkCellP 0 0 1 1 0 0).swLat) / 2) :=
  ⟨((C2_subdivision 41 0 1 1 (defaultThresholds 4 (1/100)) (mkCellP 0 0 1 1 0 0)).1).mpr
      ⟨by norm_num [defaultThresholds], by norm_num [defaultThresholds],
        by norm_num [defaultThresholds], by norm_num [defaultThresholds]⟩,
    (C2_subdivision 41 0 1 1 (defaultThresholds 4 (1/100)) (mkCellP 0 0 1 1 0 0)).2.2.2.1,
    ((C2_subdivision 41 0 1 1 (defaultThresholds 4 (1/100)) (mkCellP 0 0 1 1 0 0)).2.2.2.2
      0 1 (by norm_num) (by norm_num)).1⟩

/-- C8 counterexample: the claim says that when no bounding box can be
established, the run falls back to a single non-grid search of the
whole term+location; but in `scrape` (`scraper.py` 3470-3479) the
missing-bounds branch aborts immediately with an empty result list, and
no code path produces a fallback whole-area search. -/
theorem C8_counterexample :
    scrape_bounds_action none ≠ ScrapeAction.fallbackWholeSearch ∧
    ∀ b : Option BoundsBox, scrape_bounds_action b ≠ ScrapeAction.fallbackWholeSearch := by
  constructor
  · intro h
    exact ScrapeAction.noConfusion h
  · intro b h
    cases b with
    | none => exact ScrapeAction.noConfusion h
    | some bb => exact ScrapeAction.noConfusion h

/-- C8 (amended): when no bounding box can be established the run
aborts immediately and returns the empty result list — there is no
fallback non-grid search; with a bounding box it proceeds into grid
creation. -/
theorem C8_no_bounds_aborts :
    scrape_bounds_action none = ScrapeAction.abortEmptyResults ∧
    ∀ b : BoundsBox, scrape_bounds_action (some b) = ScrapeAction.proceedWithGrid :=
  ⟨rfl, fun _ => rfl⟩
